import Mathlib

/-!
Verification of the surfer waveform-viewer core: a shallow embedding of the
draw-command generator (`src/signal_canvas.rs`), the viewport clipping policy
(`src/viewport.rs`), translator selection (`src/main.rs`), the clock translator
(`src/translation/clock.rs`) and time formatting (`src/time.rs`), together with
proofs about the embedded definitions.

Modelling conventions:
* `BigUint` timestamps become `ℕ`; `BigInt` becomes `ℤ`; pixels (small integers
  stored in `f32`, always exactly representable) become `ℤ`.
* `f64` values in the viewport are modelled by the type `F` below: an exact
  rational together with the two infinities and NaN, with IEEE-754 rules for
  the operations `clip_to` performs.  Rounding of `f64` arithmetic and the
  negative zero are not modelled; on the inputs considered by the theorems the
  IEEE computations are exact and never produce a negative zero.
* Fallible Rust operations (`Result`) become `Option`, `none` standing for the
  error case.
* `HashMap`s become association lists with `alookup`; the draw-command
  generator only ever upserts and looks up, so the association-list view is
  faithful.
-/

set_option autoImplicit false

namespace Surfer

/-- Association-list lookup, the model of `HashMap::get`. -/
def alookup {α β : Type} [DecidableEq α] : List (α × β) → α → Option β
  | [], _ => none
  | (k, v) :: rest, a => if k = a then some v else alookup rest a

/-- Field path inside a translated compound value (`FieldRef::field`). -/
abbrev Path := List String

/-- The `ValueKind` enum from `src/translation` (re-exported in
`signal_canvas.rs`): four-value-logic / special-state classification of a
decoded value.  The custom colour payload is modelled by a number. -/
inductive ValueKind where
  | Normal
  | HighImp
  | Undef
  | DontCare
  | Weak
  | Custom (color : Nat)
  | Warn
deriving DecidableEq, Repr

/-- One flattened field value: `Option<(String, ValueKind)>` as produced by
`TranslationResult::flatten(..).as_fields()`. -/
abbrev TValue := Option (String × ValueKind)

/-- The flattened `(path, value)` pairs of one translated sample. -/
abbrev Fields := List (Path × TValue)

/-- `SignalInfo` shape descriptor.  The enum itself lives in the translation
module root, which is not part of the sources; modelled from the spec: a
tagged variant over plain Boolean, plain Clock, opaque scalar (`bits`) and
compound-with-named-sub-paths. -/
inductive SignalInfo where
  | bool
  | clock
  | bits
  | compound (subs : List (String × SignalInfo))

/-- Recursive sub-descriptor lookup.  Modelled from the spec: `SignalInfo`
"supports recursive lookup of the sub-descriptor at an arbitrary field path".
A missing path yields the opaque scalar shape; the generator only consults
whether the result is Boolean or Clock. -/
def SignalInfo.get_subinfo : SignalInfo → Path → SignalInfo
  | i, [] => i
  | .compound subs, f :: rest =>
    match alookup subs f with
    | some sub => SignalInfo.get_subinfo sub rest
    | none => .bits
  | _, _ :: _ => .bits

/-- Whether a shape gets the boolean-style drawing commands
(`SignalInfo::Bool | SignalInfo::Clock` in `generate_draw_commands`). -/
def SignalInfo.isBoolLike : SignalInfo → Bool
  | .bool => true
  | .clock => true
  | _ => false

/-- Whether a shape is the Clock shape (the `if let SignalInfo::Clock`
test feeding the clock-edge list). -/
def SignalInfo.isClock : SignalInfo → Bool
  | .clock => true
  | _ => false

/-- `DrawnRegion` from `signal_canvas.rs`: one decoded value tagged with its
kind, plus the force-anti-alias flag. -/
structure DrawnRegion where
  inner : TValue
  force_anti_alias : Bool
deriving DecidableEq, Repr

/-- `DrawingCommands` from `signal_canvas.rs`: ordered list of
`(pixel, DrawnRegion)` pairs tagged bool-style or wide-style. -/
structure DrawingCommands where
  is_bool : Bool
  values : List (Int × DrawnRegion)
deriving DecidableEq, Repr

/-- `DrawingCommands::push`. -/
def DrawingCommands.push (c : DrawingCommands) (v : Int × DrawnRegion) : DrawingCommands :=
  { c with values := c.values ++ [v] }

/-- The mutable state threaded through the per-signal loop of
`generate_draw_commands`: the `prev_values` map, the `local_commands` map and
the (outer, shared) `clock_edges` vector. -/
structure GenState where
  prev_values : List (Path × TValue)
  local_commands : List (Path × DrawingCommands)
  clock_edges : List Int
deriving DecidableEq, Repr

/-- Update-or-insert into `prev_values`
(`*prev_values.entry(path).or_insert(v) = v`). -/
def upsertPrev : List (Path × TValue) → Path → TValue → List (Path × TValue)
  | [], path, v => [(path, v)]
  | (k, w) :: rest, path, v =>
    if k = path then (k, v) :: rest else (k, w) :: upsertPrev rest path v

/-- `local_commands.entry(path).or_insert_with(new_bool / new_wide).push(e)`. -/
def upsertPush : List (Path × DrawingCommands) → Path → Bool → (Int × DrawnRegion) →
    List (Path × DrawingCommands)
  | [], path, isBool, e => [(path, ⟨isBool, [e]⟩)]
  | (k, c) :: rest, path, isBool, e =>
    if k = path then (k, c.push e) :: rest else (k, c) :: upsertPush rest path isBool e

/-- The clock-edge recording step inside the emission branch of
`generate_draw_commands` (lines 199–209): when the field's sub-shape is
Clock and the decoded value is "1" at a pixel that is neither first nor
last, append the pixel. -/
def edgePush (info : SignalInfo) (path : Path) (value : TValue)
    (isLast isFirst : Bool) (pixel : Int) (edges : List Int) : List Int :=
  if (info.get_subinfo path).isClock then
    match value with
    | some (s, _) =>
      if s = "1" && !isLast && !isFirst then edges ++ [pixel] else edges
    | none => edges
  else edges

/-- The body of `for (path, value) in fields` in `generate_draw_commands`
(lines 183–230 of `signal_canvas.rs`), acting on one flattened field. -/
def processField (info : SignalInfo) (changeTime prevTime : Nat) (pixel : Int)
    (isLast isFirst : Bool) (st : GenState) (pv : Path × TValue) : GenState :=
  let path := pv.1
  let value := pv.2
  let prev := alookup st.prev_values path
  let anti_alias := decide (prevTime < changeTime) && path.isEmpty
  let new_value := !(prev == some value)
  if new_value || isLast || anti_alias then
    { prev_values := upsertPrev st.prev_values path value
      clock_edges := edgePush info path value isLast isFirst pixel st.clock_edges
      local_commands :=
        upsertPush st.local_commands path (info.get_subinfo path).isBoolLike
          (pixel, ⟨value, anti_alias && !new_value⟩) }
  else st

/-- Consecutive pairs of the timestamp list:
`timestamps.iter().zip(timestamps.iter().skip(1))`. -/
def pairsOf : List (Int × Nat) → List ((Int × Nat) × (Int × Nat))
  | a :: b :: rest => (a, b) :: pairsOf (b :: rest)
  | _ => []

/-- `timestamps.iter().last().map(|t| t.0).unwrap_or_default()`. -/
def endPixel (ts : List (Int × Nat)) : Int :=
  (ts.getLast?.map Prod.fst).getD 0

/-- `timestamps.iter().skip(1).next().map(|t| t.0).unwrap_or_default()`. -/
def startPixel (ts : List (Int × Nat)) : Int :=
  ((ts.drop 1).head?.map Prod.fst).getD 0

/-- One iteration of the per-signal sampling loop of
`generate_draw_commands` (lines 128–231), on one `(prev, curr)` timestamp
pair: query the data source at the current time, apply the sparsity skip,
translate, and fold `processField` over the flattened fields.  `query t =
none` covers both `Ok(None)` and the logged query error, which `continue`
identically.  The returned flag is `true` when a translation failure aborts
the signal (the `return` in the error arm). -/
def stepPair (query : Nat → Option (Nat × String)) (translate : String → Option Fields)
    (info : SignalInfo) (sp ep : Int) (st : GenState)
    (pr : (Int × Nat) × (Int × Nat)) : GenState × Bool :=
  match query pr.2.2 with
  | none => (st, false)
  | some (changeTime, val) =>
    let prevTime := pr.1.2
    let pixel := pr.2.1
    let isLast := decide (pixel = ep)
    let isFirst := decide (pixel = sp)
    if changeTime < prevTime && !isFirst && !isLast then (st, false)
    else
      match translate val with
      | none => (st, true)
      | some fields =>
        (fields.foldl (processField info changeTime prevTime pixel isLast isFirst) st, false)

/-- The per-signal sampling loop: iterate `stepPair` over the consecutive
timestamp pairs, stopping early (with the abort flag) when a translation
failure `return`s out of the signal. -/
def genLoop (query : Nat → Option (Nat × String)) (translate : String → Option Fields)
    (info : SignalInfo) (sp ep : Int) :
    List ((Int × Nat) × (Int × Nat)) → GenState → GenState × Bool
  | [], st => (st, false)
  | p :: rest, st =>
    match stepPair query translate info sp ep st p with
    | (st', false) => genLoop query translate info sp ep rest st'
    | (st', true) => (st', true)

/-- A displayed signal as seen by the generator: its root name, whether
`signal_meta` succeeds, the data-source query for it, the resolved root
translator's translate-and-flatten, and its `SignalInfo`. -/
structure Signal where
  name : String
  meta_ok : Bool
  query : Nat → Option (Nat × String)
  translate : String → Option Fields
  info : SignalInfo

/-- The one message kind the generator emits on translation failure. -/
inductive Message where
  | ResetSignalFormat (root : String) (field : Path)
deriving DecidableEq, Repr

/-- The output of `generate_draw_commands`: the `FieldRef → DrawingCommands`
map (keys are root-name/path pairs), the shared clock-edge list and the
emitted messages. -/
structure Output where
  draw_commands : List ((String × Path) × DrawingCommands)
  clock_edges : List Int
  msgs : List Message
deriving DecidableEq, Repr

/-- Processing of one displayed signal inside `generate_draw_commands`:
skip on `signal_meta` failure; run the sampling loop (the shared clock-edge
vector is threaded through); on translation failure push
`Message::ResetSignalFormat` and drop `local_commands`, otherwise insert the
local commands keyed by `FieldRef { root, path }`. -/
def processSignal (ts : List (Int × Nat)) (acc : Output) (s : Signal) : Output :=
  if s.meta_ok then
    let r := genLoop s.query s.translate s.info (startPixel ts) (endPixel ts) (pairsOf ts)
      ⟨[], [], acc.clock_edges⟩
    if r.2 then
      { draw_commands := acc.draw_commands
        clock_edges := r.1.clock_edges
        msgs := acc.msgs ++ [.ResetSignalFormat s.name []] }
    else
      { draw_commands :=
          acc.draw_commands ++ r.1.local_commands.map (fun pc => ((s.name, pc.1), pc.2))
        clock_edges := r.1.clock_edges
        msgs := acc.msgs }
  else acc

/-- `State::generate_draw_commands` over the displayed signals, with the
sample-pixel/timestamp list (whose computation from the viewport is not at
issue in any claim) taken as input. -/
def generate_draw_commands (ts : List (Int × Nat)) (signals : List Signal) : Output :=
  signals.foldl (processSignal ts) ⟨[], [], []⟩

/-- The external data source's `query_signal` contract: most recent change
at-or-before `t`, from a list of `(change_time, value)` entries.  Returns the
last entry of the list whose time is at-or-before `t`. -/
def lastChangeAtOrBefore (changes : List (Nat × String)) (t : Nat) : Option (Nat × String) :=
  match changes with
  | [] => none
  | c :: rest =>
    match lastChangeAtOrBefore rest t with
    | some r => some r
    | none => if c.1 ≤ t then some c else none

/-- A drawing entry `e` recorded for field `path` in a generator state. -/
def EntryIn (st : GenState) (path : Path) (e : Int × DrawnRegion) : Prop :=
  ∃ c, alookup st.local_commands path = some c ∧ e ∈ c.values

/-- The loop invariant tying `prev_values` to the data source: whatever the
query returns at the running time, already translated, is recorded in
`prev_values`. -/
def PrevInv (query : Nat → Option (Nat × String)) (translate : String → Option Fields)
    (st : GenState) (t : Nat) : Prop :=
  ∀ ct v fields path val, query t = some (ct, v) → translate v = some fields →
    alookup fields path = some val → alookup st.prev_values path = some val

/-- Well-formedness of a pair list produced by zipping a timestamp list with
its tail: each pair's previous time continues the running time and times are
non-decreasing. -/
def ChainPairs : Nat → List ((Int × Nat) × (Int × Nat)) → Prop
  | _, [] => True
  | t, ((_, pt), (_, ct)) :: rest => t = pt ∧ pt ≤ ct ∧ ChainPairs ct rest

/-- Evidence that pixel `x` can legitimately enter the clock-edge list: some
sample pair at pixel `x`, neither the first nor the last, decodes for some
Clock-shaped field to the value "1". -/
def ClockEdgeJustified (query : Nat → Option (Nat × String))
    (translate : String → Option Fields) (info : SignalInfo) (sp ep : Int)
    (l : List ((Int × Nat) × (Int × Nat))) (x : Int) : Prop :=
  ∃ pr ∈ l, ∃ cht v fields path k,
    pr.2.1 = x ∧ x ≠ sp ∧ x ≠ ep ∧
    query pr.2.2 = some (cht, v) ∧ translate v = some fields ∧
    (path, some ("1", k)) ∈ fields ∧ (info.get_subinfo path).isClock = true

/-- The draw-command block one signal contributes to the shared map: nothing
when its metadata lookup fails or its translation aborts, its tagged local
commands otherwise. -/
def signalBlock (ts : List (Int × Nat)) (s : Signal) :
    List ((String × Path) × DrawingCommands) :=
  if s.meta_ok then
    let r := genLoop s.query s.translate s.info (startPixel ts) (endPixel ts) (pairsOf ts)
      ⟨[], [], []⟩
    if r.2 then [] else r.1.local_commands.map (fun pc => ((s.name, pc.1), pc.2))
  else []

/-- The clock edges one signal appends to the shared list. -/
def signalEdges (ts : List (Int × Nat)) (s : Signal) : List Int :=
  if s.meta_ok then
    (genLoop s.query s.translate s.info (startPixel ts) (endPixel ts) (pairsOf ts)
      ⟨[], [], []⟩).1.clock_edges
  else []

/-- The messages one signal emits: the reset request exactly when its
translation aborts. -/
def signalMsgs (ts : List (Int × Nat)) (s : Signal) : List Message :=
  if s.meta_ok then
    if (genLoop s.query s.translate s.info (startPixel ts) (endPixel ts) (pairsOf ts)
        ⟨[], [], []⟩).2 then [.ResetSignalFormat s.name []]
    else []
  else []

/-! ### Viewport (`src/viewport.rs`) -/

/-- A model of `f64` values as they flow through `Viewport::clip_to`: exact
rationals plus the infinities and NaN.  Arithmetic follows IEEE 754 except
that rounding and the negative zero are not modelled (the operations
`clip_to` performs on the inputs considered here are exact and produce no
negative zero). -/
inductive F where
  | fin : ℚ → F
  | pinf
  | ninf
  | nan
deriving DecidableEq, Repr

/-- IEEE negation. -/
def F.neg : F → F
  | .fin q => .fin (-q)
  | .pinf => .ninf
  | .ninf => .pinf
  | .nan => .nan

/-- IEEE addition (infinities of opposite sign give NaN). -/
def F.add : F → F → F
  | .nan, _ => .nan
  | _, .nan => .nan
  | .fin a, .fin b => .fin (a + b)
  | .pinf, .ninf => .nan
  | .ninf, .pinf => .nan
  | .pinf, _ => .pinf
  | _, .pinf => .pinf
  | .ninf, _ => .ninf
  | _, .ninf => .ninf

/-- IEEE subtraction. -/
def F.sub (a b : F) : F := F.add a (F.neg b)

/-- IEEE multiplication (infinity times zero gives NaN). -/
def F.mul : F → F → F
  | .nan, _ => .nan
  | _, .nan => .nan
  | .fin a, .fin b => .fin (a * b)
  | .pinf, .pinf => .pinf
  | .pinf, .ninf => .ninf
  | .ninf, .pinf => .ninf
  | .ninf, .ninf => .pinf
  | .pinf, .fin b => if 0 < b then .pinf else if b < 0 then .ninf else .nan
  | .ninf, .fin b => if 0 < b then .ninf else if b < 0 then .pinf else .nan
  | .fin a, .pinf => if 0 < a then .pinf else if a < 0 then .ninf else .nan
  | .fin a, .ninf => if 0 < a then .ninf else if a < 0 then .pinf else .nan

/-- IEEE division: a nonzero finite number divided by (unsigned) zero gives a
signed infinity, zero by zero gives NaN, finite by infinite gives zero. -/
def F.div : F → F → F
  | .nan, _ => .nan
  | _, .nan => .nan
  | .fin a, .fin b =>
    if b = 0 then (if 0 < a then .pinf else if a < 0 then .ninf else .nan)
    else .fin (a / b)
  | .fin _, .pinf => .fin 0
  | .fin _, .ninf => .fin 0
  | .pinf, .fin b => if b < 0 then .ninf else .pinf
  | .ninf, .fin b => if b < 0 then .pinf else .ninf
  | .pinf, .pinf => .nan
  | .pinf, .ninf => .nan
  | .ninf, .pinf => .nan
  | .ninf, .ninf => .nan

/-- IEEE `<` (false whenever NaN is involved). -/
def F.blt : F → F → Bool
  | .nan, _ => false
  | _, .nan => false
  | .fin a, .fin b => decide (a < b)
  | .fin _, .pinf => true
  | .fin _, .ninf => false
  | .pinf, _ => false
  | .ninf, .ninf => false
  | .ninf, _ => true

/-- Rust's `f64::min` (returns the other operand when one is NaN). -/
def F.fmin : F → F → F
  | .nan, b => b
  | a, .nan => a
  | a, b => if F.blt b a then b else a

instance : Add F := ⟨F.add⟩
instance : Sub F := ⟨F.sub⟩
instance : Mul F := ⟨F.mul⟩
instance : Div F := ⟨F.div⟩

/-- The `Viewport` struct from `src/viewport.rs`. -/
structure Viewport where
  curr_left : F
  curr_right : F
deriving DecidableEq, Repr

/-- `Viewport::new`. -/
def Viewport.new (left right : F) : Viewport :=
  { curr_left := left, curr_right := right }

/-- `Viewport::clip_to` from `src/viewport.rs` (lines 46–80): first the zoom
correction against the 10% fill limit, then the scroll correction restoring a
10% overlap margin, right-shift check before left-shift check. -/
def Viewport.clip_to (self valid : Viewport) : Viewport :=
  let curr_range := self.curr_right - self.curr_left
  let valid_range := valid.curr_right - valid.curr_left
  let fill_limit : F := .fin (1/10)
  let corr_zoom := fill_limit / (valid_range / curr_range)
  let zoom_fixed :=
    if F.blt (.fin 1) corr_zoom then
      Viewport.new (self.curr_left / corr_zoom) (self.curr_right / corr_zoom)
    else self
  let overlap_limit : F := .fin (1/10)
  let min_overlap := (F.fmin curr_range valid_range) * overlap_limit
  let corr_right := (valid.curr_left + min_overlap) - zoom_fixed.curr_right
  let corr_left := (valid.curr_right - min_overlap) - zoom_fixed.curr_left
  if F.blt (.fin 0) corr_right then
    Viewport.new (zoom_fixed.curr_left + corr_right) (zoom_fixed.curr_right + corr_right)
  else if F.blt corr_left (.fin 0) then
    Viewport.new (zoom_fixed.curr_left + corr_left) (zoom_fixed.curr_right + corr_left)
  else zoom_fixed

/-! ### Translator selection (`src/main.rs`) and the clock translator
(`src/translation/clock.rs`) -/

/-- `TranslationPreference` from the translation module. -/
inductive TranslationPreference where
  | Prefer
  | Yes
  | No
deriving DecidableEq, Repr

/-- A variable's shape as the translators consult it.  The `Var` type is the
waveform crate's; modelled from the spec, which only ever distinguishes
signals by bit width (`is_1bit`). -/
structure Var where
  num_bits : Nat
deriving DecidableEq, Repr

/-- `Var::is_1bit` from the waveform crate, modelled from the spec's
"exactly 1-bit signals". -/
def Var.is_1bit (v : Var) : Bool := v.num_bits = 1

/-- A registered translator as `select_preferred_translator` consumes it: its
stable name and its `translates` answer (`none` models a failed call). -/
structure Translator where
  name : String
  translates : Var → Option TranslationPreference

/-- `WaveData::select_preferred_translator` from `src/main.rs` (lines
1096–1121): scan registered translators in order, keep only those answering
`Ok(Prefer)` (answers of `Yes`, `No` and errors are filtered out), take the
first, and fall back to the configured default name.  The `TranslatorList`
(registration order plus configured default) lives in the translation module
root, which is not part of the sources; it is modelled by the `translators`
list and `default` argument. -/
def select_preferred_translator (translators : List Translator) (default : String)
    (var : Var) : String :=
  ((translators.filterMap fun t =>
    match t.translates var with
    | some .Prefer => some t.name
    | _ => none).head?).getD default

/-- One decoded sample.  The real `TranslationResult` (translation module
root, not in the sources) is modelled from the spec: the decoded string plus
its `ValueKind`. -/
structure TranslationResult where
  val : String
  kind : ValueKind
deriving DecidableEq, Repr

/-- Marker classification of a raw 1-bit sample character.  Modelled from the
spec: `x`/`z`/`-` map to Undef/HighImp/DontCare rather than being parsed. -/
def bitKind (s : String) : ValueKind :=
  if s = "x" then .Undef
  else if s = "z" then .HighImp
  else if s = "-" then .DontCare
  else .Normal

/-- The `BitTranslator`'s decode.  The translator itself lives in the
translation module root, which is not part of the sources; modelled from the
spec: "decodes to the literal `"0"`/`"1"`/four-value marker". -/
def bit_translate (_var : Var) (value : String) : Option TranslationResult :=
  some ⟨value, bitKind value⟩

/-- `ClockTranslator::translate` from `src/translation/clock.rs`: delegate to
the inner `BitTranslator` for 1-bit variables, otherwise fail. -/
def clock_translate (var : Var) (value : String) : Option TranslationResult :=
  if var.is_1bit then bit_translate var value else none

/-- `ClockTranslator::signal_info`: always `Ok(SignalInfo::Clock)`. -/
def clock_signal_info (_var : Var) : Option SignalInfo :=
  some .clock

/-- `ClockTranslator::translates`: `Yes` for 1-bit variables, `No`
otherwise — never `Prefer`. -/
def clock_translates (var : Var) : Option TranslationPreference :=
  if var.is_1bit then some .Yes else some .No

/-! ### Time formatting (`src/time.rs`) -/

/-- `TimescaleUnit` of the waveform crate; modelled from the spec's list of
femtoseconds through seconds (`src/time.rs` enumerates exactly these). -/
inductive TimescaleUnit where
  | femtoSeconds
  | picoSeconds
  | nanoSeconds
  | microSeconds
  | milliSeconds
  | seconds
deriving DecidableEq, Repr

/-- `TimescaleUnit::to_exponent`, modelled from the spec: the SI exponent of
the unit. -/
def TimescaleUnit.to_exponent : TimescaleUnit → Int
  | .femtoSeconds => -15
  | .picoSeconds => -12
  | .nanoSeconds => -9
  | .microSeconds => -6
  | .milliSeconds => -3
  | .seconds => 0

/-- Display form of a timescale unit, modelled from the spec's example
strings ("1.500 µs", "2000 ps"). -/
def TimescaleUnit.display : TimescaleUnit → String
  | .femtoSeconds => "fs"
  | .picoSeconds => "ps"
  | .nanoSeconds => "ns"
  | .microSeconds => "µs"
  | .milliSeconds => "ms"
  | .seconds => "s"

/-- `Timescale` of the waveform crate: a unit and a linear factor. -/
structure Timescale where
  unit : TimescaleUnit
  factor : Nat
deriving DecidableEq, Repr

/-- Display of a `Timescale` in the formatted string, modelled from the
spec's examples, which render the unit symbol. -/
def Timescale.display (t : Timescale) : String := t.unit.display

/-- Round a rational to the nearest integer, ties to even — the rounding Rust
applies when formatting an `f64` with fixed precision. -/
def roundHalfEven (q : ℚ) : Int :=
  if q - ⌊q⌋ < 1/2 then ⌊q⌋
  else if (1 : ℚ)/2 < q - ⌊q⌋ then ⌊q⌋ + 1
  else if 2 ∣ ⌊q⌋ then ⌊q⌋ else ⌊q⌋ + 1

/-- Pad a digit string with leading zeros to width `n`. -/
def padLeftZeros (s : String) (n : Nat) : String :=
  String.mk (List.replicate (n - s.length) '0') ++ s

/-- Render a nonnegative integer `m` of scaled units as a decimal with `p`
fractional digits. -/
def formatFixedNat (m : Nat) (p : Nat) : String :=
  if p = 0 then toString m
  else toString (m / 10 ^ p) ++ "." ++ padLeftZeros (toString (m % 10 ^ p)) p

/-- Rust's `format!("{:.p$}", x)` on the exact rational value: fixed-point
rendering with `p` fractional digits, rounding ties to even.  The narrowing
of the `BigRational` through `f64` is modelled as exact (it is exact for the
values the theorems evaluate). -/
def formatFixed (q : ℚ) (p : Nat) : String :=
  let n := roundHalfEven (q * 10 ^ p)
  if n < 0 then "-" ++ formatFixedNat n.natAbs p else formatFixedNat n.toNat p

/-- `time_string` from `src/time.rs`: compute the exponent difference between
display and native unit; for a non-negative difference format the exact
rational `time * factor / 10 ^ diff` with `diff` fractional digits; for a
negative difference format the exact integer `time * factor * 10 ^ (-diff)`. -/
def time_string (time : Int) (data_timescale : Timescale) (wanted_timescale : Timescale) :
    String :=
  let wanted_exponent := wanted_timescale.unit.to_exponent
  let data_exponent := data_timescale.unit.to_exponent
  let exponent_diff := wanted_exponent - data_exponent
  if 0 ≤ exponent_diff then
    formatFixed ((time * data_timescale.factor : Int) / (10 ^ exponent_diff.toNat : ℚ))
        exponent_diff.toNat
      ++ " " ++ wanted_timescale.display
  else
    toString (time * data_timescale.factor * 10 ^ (-exponent_diff).toNat)
      ++ " " ++ wanted_timescale.display

/-! ### Helper lemmas on `F` -/

@[simp]
theorem F.add_fin (a b : ℚ) : F.fin a + F.fin b = F.fin (a + b) := rfl

@[simp]
theorem F.sub_fin (a b : ℚ) : F.fin a - F.fin b = F.fin (a - b) := by
  show F.sub _ _ = _
  simp [F.sub, F.add, F.neg, sub_eq_add_neg]

@[simp]
theorem F.mul_fin (a b : ℚ) : F.fin a * F.fin b = F.fin (a * b) := rfl

theorem F.div_fin (a b : ℚ) (h : b ≠ 0) : F.fin a / F.fin b = F.fin (a / b) := by
  show F.div _ _ = _
  simp [F.div, h]

@[simp]
theorem F.div_pinf (a : ℚ) : F.fin a / F.pinf = F.fin 0 := rfl

theorem F.div_zero_pos (a : ℚ) (h : 0 < a) : F.fin a / F.fin 0 = F.pinf := by
  show F.div _ _ = _
  simp [F.div, h]

@[simp]
theorem F.blt_fin (a b : ℚ) : F.blt (F.fin a) (F.fin b) = decide (a < b) := rfl

theorem F.fmin_fin (a b : ℚ) : F.fmin (F.fin a) (F.fin b) = F.fin (min a b) := by
  show (if F.blt (F.fin b) (F.fin a) then F.fin b else F.fin a) = F.fin (min a b)
  rw [F.blt_fin]
  by_cases h : b < a
  · rw [if_pos (by simpa using h), min_eq_right (le_of_lt h)]
  · rw [if_neg (by simpa using h), min_eq_left (not_lt.mp h)]

/-! ### Claim C7: `clip_to` is a no-op on already-valid viewports -/

/-- Claim C7: for every positive-width viewport and positive-width valid range
such that the corrective zoom factor is not greater than 1 (the 10% fill
constraint) and both 10% overlap constraints already hold, `clip_to` returns
the viewport unchanged. -/
theorem claimC7_clip_to_noop (l r vl vr : ℚ)
    (hcr : 0 < r - l) (hvr : 0 < vr - vl)
    (hfill : r - l ≤ 10 * (vr - vl))
    (hright : vl + min (r - l) (vr - vl) * (1/10) ≤ r)
    (hleft : l ≤ vr - min (r - l) (vr - vl) * (1/10)) :
    Viewport.clip_to ⟨.fin l, .fin r⟩ ⟨.fin vl, .fin vr⟩ = ⟨.fin l, .fin r⟩ := by
  have h2 : r - l ≠ 0 := ne_of_gt hcr
  have h1 : vr - vl ≠ 0 := ne_of_gt hvr
  have hq : (vr - vl) / (r - l) ≠ 0 := div_ne_zero h1 h2
  have he : (1:ℚ)/10 / ((vr - vl) / (r - l)) = (r - l) / (10 * (vr - vl)) := by
    field_simp
  have hz : ¬ ((1 : ℚ) < 1/10 / ((vr - vl) / (r - l))) := by
    rw [he, not_lt, div_le_one (by linarith)]
    linarith
  unfold Viewport.clip_to
  simp only [F.sub_fin]
  rw [F.div_fin _ _ h2, F.div_fin _ _ hq]
  simp only [F.blt_fin, decide_eq_true_eq]
  rw [if_neg hz]
  rw [F.fmin_fin]
  simp only [F.mul_fin, F.add_fin, F.sub_fin, F.blt_fin, decide_eq_true_eq]
  rw [if_neg (by linarith : ¬ ((0:ℚ) < vl + min (r - l) (vr - vl) * (1/10) - r))]
  rw [if_neg (by linarith : ¬ (vr - min (r - l) (vr - vl) * (1/10) - l < (0:ℚ)))]

/-- Witness for C7 at a concrete valid viewport. -/
theorem claimC7_witness :
    ((0:ℚ) < 100 - 0 ∧ (0:ℚ) < 90 - 10 ∧ (100:ℚ) - 0 ≤ 10 * (90 - 10) ∧
      (10:ℚ) + min (100 - 0) (90 - 10) * (1/10) ≤ 100 ∧
      (0:ℚ) ≤ 90 - min (100 - 0) (90 - 10) * (1/10)) ∧
    Viewport.clip_to ⟨.fin 0, .fin 100⟩ ⟨.fin 10, .fin 90⟩ = ⟨.fin 0, .fin 100⟩ :=
  ⟨by norm_num,
   claimC7_clip_to_noop 0 100 10 90 (by norm_num) (by norm_num) (by norm_num)
     (by norm_num) (by norm_num)⟩

/-! ### Claim C8: `clip_to` on a zero-width valid range -/

/-- On a zero-width valid range `(c, c)` and a positive-width viewport,
`clip_to` collapses the viewport to the zero-width viewport `(c, c)`: the
fill ratio is a division by zero yielding infinity, the zoom correction
divides both bounds by it giving `(0, 0)`, and the scroll correction shifts
the collapsed viewport to the valid point. -/
theorem clip_to_zero_width (l r c : ℚ) (h : l < r) :
    Viewport.clip_to ⟨.fin l, .fin r⟩ ⟨.fin c, .fin c⟩ = ⟨.fin c, .fin c⟩ := by
  have hrl : r - l ≠ 0 := ne_of_gt (by linarith)
  unfold Viewport.clip_to
  simp only [F.sub_fin, sub_self]
  rw [F.div_fin _ _ hrl, zero_div, F.div_zero_pos _ (by norm_num)]
  have hblt : F.blt (F.fin 1) F.pinf = true := rfl
  rw [hblt]
  simp only [if_true, Viewport.new, F.div_pinf]
  rw [F.fmin_fin, min_eq_right (le_of_lt (by linarith)), F.mul_fin, zero_mul]
  simp only [F.add_fin, F.sub_fin, F.blt_fin, add_zero, sub_zero, zero_add]
  rcases lt_trichotomy 0 c with hc | hc | hc
  · rw [if_pos (by simpa using hc)]
  · rw [← hc]
    norm_num
  · rw [if_neg (by simp; linarith), if_pos (by simp; linarith)]

/-- Counterexample to C8 as stated: with the positive-width viewport
`(0, 100)` and the zero-width valid range `(50, 50)`, `clip_to` neither
leaves the viewport alone nor performs a minimal zoom — it returns the
degenerate zero-width viewport `(50, 50)`. -/
theorem claimC8_counterexample :
    Viewport.clip_to ⟨.fin 0, .fin 100⟩ ⟨.fin 50, .fin 50⟩ = ⟨.fin 50, .fin 50⟩ ∧
    (Viewport.clip_to ⟨.fin 0, .fin 100⟩ ⟨.fin 50, .fin 50⟩).curr_right -
      (Viewport.clip_to ⟨.fin 0, .fin 100⟩ ⟨.fin 50, .fin 50⟩).curr_left = F.fin 0 ∧
    Viewport.clip_to ⟨.fin 0, .fin 100⟩ ⟨.fin 50, .fin 50⟩ ≠ ⟨.fin 0, .fin 100⟩ := by
  have h1 : Viewport.clip_to ⟨.fin 0, .fin 100⟩ ⟨.fin 50, .fin 50⟩ = ⟨.fin 50, .fin 50⟩ :=
    clip_to_zero_width 0 100 50 (by norm_num)
  refine ⟨h1, ?_, ?_⟩
  · rw [h1]
    show F.fin 50 - F.fin 50 = F.fin 0
    rw [F.sub_fin, sub_self]
  · rw [h1]
    intro hh
    rw [Viewport.mk.injEq] at hh
    have h50 := hh.1
    rw [F.fin.injEq] at h50
    norm_num at h50

/-- Claim C8 (amended): on a zero-width valid range `(c, c)`, `clip_to` of a
positive-width viewport does not fault — every floating-point operation is
total, the division by the zero fill ratio yielding infinity — but instead
of a no-op or minimal zoom it produces the degenerate zero-width viewport
`(c, c)`. -/
theorem claimC8_zero_width_valid (l r c : ℚ) (h : l < r) :
    Viewport.clip_to ⟨.fin l, .fin r⟩ ⟨.fin c, .fin c⟩ = ⟨.fin c, .fin c⟩ :=
  clip_to_zero_width l r c h

/-- Witness for the amended C8. -/
theorem claimC8_witness :
    (0:ℚ) < 10 ∧ Viewport.clip_to ⟨.fin 0, .fin 10⟩ ⟨.fin 3, .fin 3⟩ = ⟨.fin 3, .fin 3⟩ :=
  ⟨by norm_num, claimC8_zero_width_valid 0 10 3 (by norm_num)⟩

/-! ### Claim C4: default translator selection -/

/-- The selection scan equals: first translator answering `Ok(Prefer)`, else
the default. -/
theorem select_eq_find (ts : List Translator) (d : String) (var : Var) :
    select_preferred_translator ts d var =
      ((ts.find? fun t => decide (t.translates var = some .Prefer)).map
        Translator.name).getD d := by
  induction ts with
  | nil => rfl
  | cons t rest ih =>
    unfold select_preferred_translator at ih ⊢
    rw [List.filterMap_cons, List.find?_cons]
    cases h : t.translates var with
    | none => simpa [h] using ih
    | some p =>
      cases p with
      | Prefer => simp [h]
      | Yes => simpa [h] using ih
      | No => simpa [h] using ih

/-- Claim C4: the chosen default translator is the first registered one whose
`translates` returns `Ok(Prefer)`; translators answering `Yes`, `No` or
failing are skipped; when no translator prefers, the configured default name
is returned. -/
theorem claimC4_default_translator_selection (ts : List Translator) (d : String) (var : Var) :
    select_preferred_translator ts d var =
      ((ts.find? fun t => decide (t.translates var = some .Prefer)).map
        Translator.name).getD d ∧
    ((∀ t ∈ ts, t.translates var ≠ some .Prefer) →
      select_preferred_translator ts d var = d) := by
  refine ⟨select_eq_find ts d var, fun h => ?_⟩
  rw [select_eq_find ts d var]
  rw [List.find?_eq_none.mpr (fun t ht => by simpa using h t ht)]
  rfl

/-- Witness for C4: a `Yes` answer is skipped, triggering the fallback. -/
theorem claimC4_witness :
    (∀ t ∈ [Translator.mk "Bit" (fun v => if v.is_1bit then some .Yes else some .No)],
      t.translates ⟨1⟩ ≠ some TranslationPreference.Prefer) ∧
    select_preferred_translator
      [Translator.mk "Bit" (fun v => if v.is_1bit then some .Yes else some .No)]
      "Hexadecimal" ⟨1⟩ = "Hexadecimal" := by
  have h : ∀ t ∈ [Translator.mk "Bit" (fun v => if v.is_1bit then some .Yes else some .No)],
      t.translates ⟨1⟩ ≠ some TranslationPreference.Prefer := by
    intro t ht
    rw [List.mem_singleton] at ht
    subst ht
    decide
  exact ⟨h, (claimC4_default_translator_selection _ _ _).2 h⟩

/-! ### Claim C9: the clock translator -/

/-- Claim C9: `ClockTranslator::translate` fails on every variable wider than
one bit, delegates to the bit translator on 1-bit variables, and
`signal_info` always reports the Clock shape. -/
theorem claimC9_clock_translator (var : Var) (val : String) :
    (1 < var.num_bits → clock_translate var val = none) ∧
    (var.num_bits = 1 → clock_translate var val = bit_translate var val) ∧
    clock_signal_info var = some .clock := by
  refine ⟨fun h => ?_, fun h => ?_, rfl⟩
  · unfold clock_translate Var.is_1bit
    rw [if_neg]
    simp only [decide_eq_true_eq]
    omega
  · unfold clock_translate Var.is_1bit
    rw [if_pos]
    simp [h]

/-- Witness for C9 at a wide and a 1-bit variable. -/
theorem claimC9_witness :
    (1 < (Var.mk 8).num_bits ∧ clock_translate ⟨8⟩ "10101010" = none) ∧
    ((Var.mk 1).num_bits = 1 ∧ clock_translate ⟨1⟩ "1" = bit_translate ⟨1⟩ "1") :=
  ⟨⟨by decide, (claimC9_clock_translator ⟨8⟩ "10101010").1 (by decide)⟩,
   ⟨rfl, (claimC9_clock_translator ⟨1⟩ "1").2.1 rfl⟩⟩

/-! ### Claim C10: the clock translator is never auto-selected -/

/-- Claim C10: `ClockTranslator::translates` answers `Yes` for 1-bit
variables and `No` otherwise — never `Prefer` — so under the Prefer-first
selection policy the clock translator's name is never returned unless it is
the configured default. -/
theorem claimC10_clock_never_preferred :
    (∀ var : Var, clock_translates var = some (if var.is_1bit then .Yes else .No) ∧
      clock_translates var ≠ some .Prefer) ∧
    (∀ (ts : List Translator) (d : String) (var : Var),
      (∀ t ∈ ts, t.name = "Clock" → t.translates = clock_translates) →
      d ≠ "Clock" →
      select_preferred_translator ts d var ≠ "Clock") := by
  constructor
  · intro var
    by_cases hb : var.is_1bit <;>
      refine ⟨by simp [clock_translates, hb], by simp [clock_translates, hb]⟩
  · intro ts d var hclock hd
    rw [select_eq_find ts d var]
    cases hfind : ts.find? fun t => decide (t.translates var = some .Prefer) with
    | none => simpa using hd
    | some t =>
      show t.name ≠ "Clock"
      intro hname
      have hmem := List.mem_of_find?_eq_some hfind
      have hpref := List.find?_some hfind
      simp only [decide_eq_true_eq] at hpref
      rw [hclock t hmem hname] at hpref
      by_cases hb : var.is_1bit <;> simp [clock_translates, hb] at hpref

/-- Witness for C10: with the clock translator registered and a different
default, selection avoids "Clock". -/
theorem claimC10_witness :
    ("Hexadecimal" ≠ "Clock") ∧
    select_preferred_translator [Translator.mk "Clock" clock_translates]
      "Hexadecimal" ⟨1⟩ ≠ "Clock" := by
  have h1 : ∀ t ∈ [Translator.mk "Clock" clock_translates],
      t.name = "Clock" → t.translates = clock_translates := by
    intro t ht _
    rw [List.mem_singleton] at ht
    subst ht
    rfl
  have h2 : "Hexadecimal" ≠ "Clock" := by decide
  exact ⟨h2, claimC10_clock_never_preferred.2 _ _ ⟨1⟩ h1 h2⟩

/-! ### Claim C6: time formatting -/

/-- Rounding is exact on integers. -/
theorem roundHalfEven_intCast (m : ℤ) : roundHalfEven (m : ℚ) = m := by
  unfold roundHalfEven
  rw [Int.floor_intCast, sub_self]
  rw [if_pos (by norm_num)]

/-- `formatFixed` on a rational whose scaled value is the natural number `m`
renders `m` with `p` fractional digits. -/
theorem formatFixed_eq (q : ℚ) (p : ℕ) (m : ℕ) (hm : q * 10 ^ p = m) :
    formatFixed q p = formatFixedNat m p := by
  unfold formatFixed
  rw [hm, (Int.cast_natCast m).symm, roundHalfEven_intCast]
  rw [if_neg (by omega)]
  rw [Int.toNat_natCast]

/-- In the non-negative exponent regime, `time_string` renders the scaled
integer value with `diff` fractional digits. -/
theorem time_string_nonneg_diff (t : ℤ) (data wanted : Timescale) (m : ℕ)
    (hd : 0 ≤ wanted.unit.to_exponent - data.unit.to_exponent)
    (hm : ((t * data.factor : ℤ) : ℚ) /
        (10 ^ (wanted.unit.to_exponent - data.unit.to_exponent).toNat : ℚ) *
        10 ^ (wanted.unit.to_exponent - data.unit.to_exponent).toNat = m) :
    time_string t data wanted =
      formatFixedNat m (wanted.unit.to_exponent - data.unit.to_exponent).toNat
        ++ " " ++ wanted.display := by
  unfold time_string
  rw [if_pos hd, formatFixed_eq _ _ m hm]

/-- Claim C6: for a non-negative exponent difference, `time_string` renders
the exact rational `time * factor / 10 ^ diff` with `diff` fractional digits;
for a negative difference it renders the exact integer
`time * factor * 10 ^ (-diff)` with no fraction.  In particular 1500 native
nanoseconds display microseconds gives "1.500 µs" and 2 native nanoseconds
display picoseconds gives "2000 ps". -/
theorem claimC6_time_formatting (t : Int) (data wanted : Timescale) :
    (time_string 1500 ⟨.nanoSeconds, 1⟩ ⟨.microSeconds, 1⟩ = "1.500 µs") ∧
    (time_string 2 ⟨.nanoSeconds, 1⟩ ⟨.picoSeconds, 1⟩ = "2000 ps") ∧
    (0 ≤ wanted.unit.to_exponent - data.unit.to_exponent →
      time_string t data wanted =
        formatFixed ((t * data.factor : Int) /
            (10 ^ (wanted.unit.to_exponent - data.unit.to_exponent).toNat : ℚ))
          (wanted.unit.to_exponent - data.unit.to_exponent).toNat
          ++ " " ++ wanted.display) ∧
    (wanted.unit.to_exponent - data.unit.to_exponent < 0 →
      time_string t data wanted =
        toString (t * data.factor *
            10 ^ (-(wanted.unit.to_exponent - data.unit.to_exponent)).toNat)
          ++ " " ++ wanted.display) := by
  refine ⟨?_, ?_, fun h => ?_, fun h => ?_⟩
  · rw [time_string_nonneg_diff 1500 ⟨.nanoSeconds, 1⟩ ⟨.microSeconds, 1⟩ 1500
      (by decide) (by norm_num [TimescaleUnit.to_exponent])]
    decide
  · unfold time_string
    rw [if_neg (by decide)]
    decide
  · unfold time_string
    rw [if_pos h]
  · unfold time_string
    rw [if_neg (not_le.mpr h)]

/-- Witness for C6 in both exponent regimes. -/
theorem claimC6_witness :
    ((0 : Int) ≤ TimescaleUnit.milliSeconds.to_exponent -
        TimescaleUnit.nanoSeconds.to_exponent ∧
      time_string 7 ⟨.nanoSeconds, 1⟩ ⟨.milliSeconds, 1⟩ =
        formatFixed ((7 * (1:Nat) : Int) /
            (10 ^ (TimescaleUnit.milliSeconds.to_exponent -
              TimescaleUnit.nanoSeconds.to_exponent).toNat : ℚ))
          (TimescaleUnit.milliSeconds.to_exponent -
            TimescaleUnit.nanoSeconds.to_exponent).toNat
          ++ " " ++ (Timescale.mk .milliSeconds 1).display) ∧
    (TimescaleUnit.picoSeconds.to_exponent - TimescaleUnit.nanoSeconds.to_exponent < 0 ∧
      time_string 2 ⟨.nanoSeconds, 1⟩ ⟨.picoSeconds, 1⟩ =
        toString ((2 : Int) * (1:Nat) *
            10 ^ (-(TimescaleUnit.picoSeconds.to_exponent -
              TimescaleUnit.nanoSeconds.to_exponent)).toNat)
          ++ " " ++ (Timescale.mk .picoSeconds 1).display) :=
  ⟨⟨by decide, (claimC6_time_formatting 7 ⟨.nanoSeconds, 1⟩ ⟨.milliSeconds, 1⟩).2.2.1
      (by decide)⟩,
   ⟨by decide, (claimC6_time_formatting 2 ⟨.nanoSeconds, 1⟩ ⟨.picoSeconds, 1⟩).2.2.2
      (by decide)⟩⟩

/-! ### Association-list and `processField` lemmas -/

theorem alookup_upsertPrev (l : List (Path × TValue)) (path : Path) (v : TValue)
    (path' : Path) :
    alookup (upsertPrev l path v) path' =
      if path = path' then some v else alookup l path' := by
  induction l with
  | nil =>
    by_cases h : path = path' <;> simp [upsertPrev, alookup, h]
  | cons kv rest ih =>
    obtain ⟨k, w⟩ := kv
    by_cases hk : k = path
    · subst hk
      by_cases h : k = path' <;> simp [upsertPrev, alookup, h]
    · by_cases h : k = path'
      · subst h
        have hpk : path ≠ k := fun hh => hk hh.symm
        simp [upsertPrev, alookup, hk, hpk]
      · simp [upsertPrev, alookup, hk, h, ih]

theorem alookup_upsertPush (l : List (Path × DrawingCommands)) (path : Path)
    (b : Bool) (e : Int × DrawnRegion) (path' : Path) :
    alookup (upsertPush l path b e) path' =
      if path = path' then
        some (match alookup l path with
          | some c => c.push e
          | none => ⟨b, [e]⟩)
      else alookup l path' := by
  induction l with
  | nil =>
    by_cases h : path = path' <;> simp [upsertPush, alookup, h]
  | cons kv rest ih =>
    obtain ⟨k, w⟩ := kv
    by_cases hk : k = path
    · subst hk
      by_cases h : k = path' <;> simp [upsertPush, alookup, h]
    · by_cases h : k = path'
      · subst h
        have hpk : path ≠ k := fun hh => hk hh.symm
        simp [upsertPush, alookup, hk, hpk]
      · simp [upsertPush, alookup, hk, h, ih]

theorem alookup_of_mem_nodup {β : Type} (l : List (Path × β))
    (hnd : (l.map Prod.fst).Nodup) (path : Path) (v : β) (hmem : (path, v) ∈ l) :
    alookup l path = some v := by
  induction l with
  | nil => cases hmem
  | cons kv rest ih =>
    obtain ⟨k, w⟩ := kv
    rw [List.map_cons, List.nodup_cons] at hnd
    rcases List.mem_cons.mp hmem with h | h
    · rw [Prod.mk.injEq] at h
      obtain ⟨h1, h2⟩ := h
      subst h1
      subst h2
      simp [alookup]
    · have hk : k ≠ path := by
        intro hh
        subst hh
        exact hnd.1 (List.mem_map.mpr ⟨(k, v), h, rfl⟩)
      simp only [alookup, if_neg hk]
      exact ih hnd.2 h

theorem alookup_eq_none {β : Type} (l : List ((String × Path) × β)) (k : String × Path)
    (h : ∀ e ∈ l, e.1 ≠ k) : alookup l k = none := by
  induction l with
  | nil => rfl
  | cons e rest ih =>
    obtain ⟨ek, ev⟩ := e
    simp only [alookup]
    rw [if_neg (h (ek, ev) (List.mem_cons_self ..))]
    exact ih fun x hx => h x (List.mem_cons_of_mem _ hx)

/-! ### Lemmas about `edgePush` and `processField` -/

theorem edgePush_suffix (info : SignalInfo) (path : Path) (value : TValue)
    (il ifi : Bool) (px : Int) (edges : List Int) :
    ∃ t, edgePush info path value il ifi px edges = edges ++ t := by
  unfold edgePush
  split
  · match value with
    | some (s, k) =>
      by_cases h : (s = "1" && !il && !ifi) = true
      · exact ⟨[px], by simp [h]⟩
      · exact ⟨[], by simp [h]⟩
    | none => exact ⟨[], by simp⟩
  · exact ⟨[], by simp⟩

theorem edgePush_sound (info : SignalInfo) (path : Path) (value : TValue)
    (il ifi : Bool) (px : Int) (edges : List Int) (x : Int)
    (hx : x ∈ edgePush info path value il ifi px edges) :
    x ∈ edges ∨ (x = px ∧ (info.get_subinfo path).isClock = true ∧
      (∃ k, value = some ("1", k)) ∧ il = false ∧ ifi = false) := by
  unfold edgePush at hx
  by_cases hc : (info.get_subinfo path).isClock = true
  · rw [if_pos hc] at hx
    match hv : value with
    | some (s, k) =>
      have hx2 : x ∈ (if (s = "1" && !il && !ifi) = true then edges ++ [px] else edges) := hx
      by_cases h : (s = "1" && !il && !ifi) = true
      · rw [if_pos h] at hx2
        rcases List.mem_append.mp hx2 with h1 | h1
        · exact Or.inl h1
        · simp only [Bool.and_eq_true, decide_eq_true_eq, Bool.not_eq_true'] at h
          exact Or.inr ⟨List.mem_singleton.mp h1, hc, ⟨k, by rw [h.1.1]⟩, h.1.2, h.2⟩
      · rw [if_neg h] at hx2
        exact Or.inl hx2
    | none =>
      exact Or.inl hx
  · rw [if_neg hc] at hx
    exact Or.inl hx

/-- The zeta-expanded form of `processField`, for case analysis. -/
theorem processField_eq (info : SignalInfo) (ct pt : Nat) (px : Int)
    (il ifi : Bool) (st : GenState) (path : Path) (value : TValue) :
    processField info ct pt px il ifi st (path, value) =
      (if (!(alookup st.prev_values path == some value) || il ||
          (decide (pt < ct) && path.isEmpty)) = true then
        (⟨upsertPrev st.prev_values path value,
         upsertPush st.local_commands path (info.get_subinfo path).isBoolLike
           (px, ⟨value, ((decide (pt < ct) && path.isEmpty) &&
             !(!(alookup st.prev_values path == some value)))⟩),
         edgePush info path value il ifi px st.clock_edges⟩ : GenState)
      else st) := rfl

theorem edgePush_mem (info : SignalInfo) (path : Path) (k : ValueKind)
    (px : Int) (edges : List Int)
    (hc : (info.get_subinfo path).isClock = true) :
    px ∈ edgePush info path (some ("1", k)) false false px edges := by
  unfold edgePush
  rw [if_pos hc]
  simp

theorem processField_prev_lookup (info : SignalInfo) (ct pt : Nat) (px : Int)
    (il ifi : Bool) (st : GenState) (path : Path) (value : TValue) (path' : Path) :
    alookup (processField info ct pt px il ifi st (path, value)).prev_values path' =
      if path = path' then some value else alookup st.prev_values path' := by
  rw [processField_eq]
  split
  · next hg => exact alookup_upsertPrev st.prev_values path value path'
  · next hg =>
    simp only [Bool.or_eq_true, not_or, Bool.not_eq_true] at hg
    have hbeq : (alookup st.prev_values path == some value) = true := by
      have h1 := hg.1.1
      revert h1
      cases alookup st.prev_values path == some value <;> simp
    have hprev : alookup st.prev_values path = some value := eq_of_beq hbeq
    by_cases hp : path = path'
    · subst hp
      rw [if_pos rfl, hprev]
    · rw [if_neg hp]

theorem processField_noop (info : SignalInfo) (ct pt : Nat) (px : Int)
    (ifi : Bool) (st : GenState) (path : Path) (value : TValue)
    (h1 : alookup st.prev_values path = some value) (h3 : ¬ pt < ct) :
    processField info ct pt px false ifi st (path, value) = st := by
  rw [processField_eq]
  rw [if_neg]
  simp [h1, h3]

theorem processField_edges_suffix (info : SignalInfo) (ct pt : Nat) (px : Int)
    (il ifi : Bool) (st : GenState) (pv : Path × TValue) :
    ∃ t, (processField info ct pt px il ifi st pv).clock_edges = st.clock_edges ++ t := by
  obtain ⟨path, value⟩ := pv
  rw [processField_eq]
  split
  · exact edgePush_suffix info path value il ifi px st.clock_edges
  · exact ⟨[], by simp⟩

theorem processField_entry_mono (info : SignalInfo) (ct pt : Nat) (px : Int)
    (il ifi : Bool) (st : GenState) (pv : Path × TValue) (path' : Path)
    (e : Int × DrawnRegion) (he : EntryIn st path' e) :
    EntryIn (processField info ct pt px il ifi st pv) path' e := by
  obtain ⟨path, value⟩ := pv
  obtain ⟨c, hc, hmem⟩ := he
  rw [processField_eq]
  split
  · unfold EntryIn
    dsimp only
    rw [alookup_upsertPush]
    by_cases hp : path = path'
    · subst hp
      rw [if_pos rfl, hc]
      exact ⟨_, rfl, by simp [DrawingCommands.push]; exact Or.inl hmem⟩
    · rw [if_neg hp]
      exact ⟨c, hc, hmem⟩
  · exact ⟨c, hc, hmem⟩

theorem processField_pushes (info : SignalInfo) (ct pt : Nat) (px : Int)
    (ifi : Bool) (st : GenState) (path : Path) (value : TValue) :
    ∃ r, EntryIn (processField info ct pt px true ifi st (path, value)) path (px, r) ∧
      r.inner = value := by
  rw [processField_eq]
  rw [if_pos (by simp)]
  refine ⟨⟨value, ((decide (pt < ct) && path.isEmpty) &&
    !(!(alookup st.prev_values path == some value)))⟩, ?_, rfl⟩
  unfold EntryIn
  dsimp only
  rw [alookup_upsertPush, if_pos rfl]
  cases hc : alookup st.local_commands path with
  | none => exact ⟨_, rfl, by simp⟩
  | some c => exact ⟨_, rfl, by simp [DrawingCommands.push]⟩

theorem processField_clock_edge (info : SignalInfo) (ct pt : Nat) (px : Int)
    (st : GenState) (path : Path) (k : ValueKind)
    (haa : (decide (pt < ct) && path.isEmpty) = true)
    (hclock : (info.get_subinfo path).isClock = true) :
    px ∈ (processField info ct pt px false false st (path, some ("1", k))).clock_edges := by
  rw [processField_eq]
  rw [if_pos (by simp [haa])]
  exact edgePush_mem info path k px st.clock_edges hclock

theorem processField_edges_sound (info : SignalInfo) (ct pt : Nat) (px : Int)
    (il ifi : Bool) (st : GenState) (path : Path) (value : TValue) (x : Int)
    (hx : x ∈ (processField info ct pt px il ifi st (path, value)).clock_edges) :
    x ∈ st.clock_edges ∨ (x = px ∧ (info.get_subinfo path).isClock = true ∧
      (∃ k, value = some ("1", k)) ∧ il = false ∧ ifi = false) := by
  rw [processField_eq] at hx
  revert hx
  split
  · intro hx
    exact edgePush_sound info path value il ifi px st.clock_edges x hx
  · intro hx
    exact Or.inl hx

/-! ### Lemmas about the fold over the flattened fields -/

theorem fold_noop (info : SignalInfo) (ct pt : Nat) (px : Int) (il ifi : Bool)
    (fields : Fields) (st : GenState)
    (h : ∀ pv ∈ fields, processField info ct pt px il ifi st pv = st) :
    fields.foldl (processField info ct pt px il ifi) st = st := by
  induction fields with
  | nil => rfl
  | cons f rest ih =>
    rw [List.foldl_cons, h f (List.mem_cons_self ..)]
    exact ih fun pv hpv => h pv (List.mem_cons_of_mem _ hpv)

theorem fold_prev_not_mem (info : SignalInfo) (ct pt : Nat) (px : Int) (il ifi : Bool)
    (fields : Fields) (st : GenState) (path : Path)
    (h : path ∉ fields.map Prod.fst) :
    alookup (fields.foldl (processField info ct pt px il ifi) st).prev_values path =
      alookup st.prev_values path := by
  induction fields generalizing st with
  | nil => rfl
  | cons f rest ih =>
    obtain ⟨p, v⟩ := f
    rw [List.map_cons] at h
    rw [List.foldl_cons]
    rw [ih _ (fun hh => h (List.mem_cons_of_mem _ hh))]
    rw [processField_prev_lookup]
    rw [if_neg (fun hh => h (by rw [← hh]; exact List.mem_cons_self ..))]

theorem fold_sets_prev (info : SignalInfo) (ct pt : Nat) (px : Int) (il ifi : Bool)
    (fields : Fields) (st : GenState)
    (hnd : (fields.map Prod.fst).Nodup) (path : Path) (val : TValue)
    (hm : (path, val) ∈ fields) :
    alookup (fields.foldl (processField info ct pt px il ifi) st).prev_values path =
      some val := by
  induction fields generalizing st with
  | nil => cases hm
  | cons f rest ih =>
    obtain ⟨p, v⟩ := f
    rw [List.map_cons, List.nodup_cons] at hnd
    rw [List.foldl_cons]
    rcases List.mem_cons.mp hm with h | h
    · rw [Prod.mk.injEq] at h
      obtain ⟨h1, h2⟩ := h
      subst h1
      subst h2
      rw [fold_prev_not_mem _ _ _ _ _ _ _ _ _ hnd.1]
      rw [processField_prev_lookup, if_pos rfl]
    · exact ih _ hnd.2 h

theorem fold_edges_suffix (info : SignalInfo) (ct pt : Nat) (px : Int) (il ifi : Bool)
    (fields : Fields) (st : GenState) :
    ∃ t, (fields.foldl (processField info ct pt px il ifi) st).clock_edges =
      st.clock_edges ++ t := by
  induction fields generalizing st with
  | nil => exact ⟨[], by simp⟩
  | cons f rest ih =>
    rw [List.foldl_cons]
    obtain ⟨t1, ht1⟩ := processField_edges_suffix info ct pt px il ifi st f
    obtain ⟨t2, ht2⟩ := ih (processField info ct pt px il ifi st f)
    exact ⟨t1 ++ t2, by rw [ht2, ht1, List.append_assoc]⟩

theorem fold_edges_mem_mono (info : SignalInfo) (ct pt : Nat) (px : Int) (il ifi : Bool)
    (fields : Fields) (st : GenState) (x : Int) (hx : x ∈ st.clock_edges) :
    x ∈ (fields.foldl (processField info ct pt px il ifi) st).clock_edges := by
  obtain ⟨t, ht⟩ := fold_edges_suffix info ct pt px il ifi fields st
  rw [ht]
  exact List.mem_append_left _ hx

theorem fold_entry_mono (info : SignalInfo) (ct pt : Nat) (px : Int) (il ifi : Bool)
    (fields : Fields) (st : GenState) (path' : Path) (e : Int × DrawnRegion)
    (he : EntryIn st path' e) :
    EntryIn (fields.foldl (processField info ct pt px il ifi) st) path' e := by
  induction fields generalizing st with
  | nil => exact he
  | cons f rest ih =>
    rw [List.foldl_cons]
    exact ih _ (processField_entry_mono info ct pt px il ifi st f path' e he)

theorem fold_pushes (info : SignalInfo) (ct pt : Nat) (px : Int) (ifi : Bool)
    (fields : Fields) (st : GenState) (path : Path) (value : TValue)
    (hm : (path, value) ∈ fields) :
    ∃ r, EntryIn (fields.foldl (processField info ct pt px true ifi) st) path (px, r) ∧
      r.inner = value := by
  obtain ⟨s, t, hst⟩ := List.append_of_mem hm
  subst hst
  rw [List.foldl_append, List.foldl_cons]
  obtain ⟨r, hr, hri⟩ := processField_pushes info ct pt px ifi
    (s.foldl (processField info ct pt px true ifi) st) path value
  exact ⟨r, fold_entry_mono info ct pt px true ifi t _ path (px, r) hr, hri⟩

theorem fold_clock_edge (info : SignalInfo) (ct pt : Nat) (px : Int)
    (fields : Fields) (st : GenState) (k : ValueKind)
    (hm : ([], some ("1", k)) ∈ fields)
    (hct : pt < ct)
    (hclock : (info.get_subinfo []).isClock = true) :
    px ∈ (fields.foldl (processField info ct pt px false false) st).clock_edges := by
  obtain ⟨s, t, hst⟩ := List.append_of_mem hm
  subst hst
  rw [List.foldl_append, List.foldl_cons]
  refine fold_edges_mem_mono info ct pt px false false t _ px ?_
  exact processField_clock_edge info ct pt px _ [] k (by simp [hct]) hclock

theorem fold_edges_sound (info : SignalInfo) (ct pt : Nat) (px : Int) (il ifi : Bool)
    (fields : Fields) (st : GenState) (x : Int)
    (hx : x ∈ (fields.foldl (processField info ct pt px il ifi) st).clock_edges) :
    x ∈ st.clock_edges ∨ ∃ path k, (path, some ("1", k)) ∈ fields ∧
      (info.get_subinfo path).isClock = true ∧ x = px ∧ il = false ∧ ifi = false := by
  induction fields generalizing st with
  | nil => exact Or.inl hx
  | cons f rest ih =>
    obtain ⟨p, v⟩ := f
    rw [List.foldl_cons] at hx
    rcases ih _ hx with h | h
    · rcases processField_edges_sound info ct pt px il ifi st p v x h with h1 | h1
      · exact Or.inl h1
      · obtain ⟨hxp, hcl, ⟨k, hk⟩, hil, hifi⟩ := h1
        subst hk
        exact Or.inr ⟨p, k, List.mem_cons_self .., hcl, hxp, hil, hifi⟩
    · obtain ⟨path, k, hmem, hcl, hxp, hil, hifi⟩ := h
      exact Or.inr ⟨path, k, List.mem_cons_of_mem _ hmem, hcl, hxp, hil, hifi⟩

/-! ### Lemmas about `stepPair` and `genLoop` -/

/-- The zeta-expanded form of `stepPair`, for case analysis. -/
theorem stepPair_eq (q : Nat → Option (Nat × String)) (tr : String → Option Fields)
    (info : SignalInfo) (sp ep : Int) (st : GenState) (pr : (Int × Nat) × (Int × Nat)) :
    stepPair q tr info sp ep st pr =
      (match q pr.2.2 with
       | none => (st, false)
       | some (ct, val) =>
         if (decide (ct < pr.1.2) && !(decide (pr.2.1 = sp)) && !(decide (pr.2.1 = ep)))
             = true then (st, false)
         else match tr val with
           | none => (st, true)
           | some fields =>
             (fields.foldl
               (processField info ct pr.1.2 pr.2.1 (decide (pr.2.1 = ep))
                 (decide (pr.2.1 = sp))) st, false)) := rfl

theorem genLoop_cons (q : Nat → Option (Nat × String)) (tr : String → Option Fields)
    (info : SignalInfo) (sp ep : Int) (p : (Int × Nat) × (Int × Nat))
    (rest : List ((Int × Nat) × (Int × Nat))) (st : GenState) :
    genLoop q tr info sp ep (p :: rest) st =
      (match stepPair q tr info sp ep st p with
       | (st', false) => genLoop q tr info sp ep rest st'
       | (st', true) => (st', true)) := rfl

theorem stepPair_abort (q : Nat → Option (Nat × String)) (tr : String → Option Fields)
    (info : SignalInfo) (sp ep : Int) (st : GenState) (pr : (Int × Nat) × (Int × Nat))
    (h : (stepPair q tr info sp ep st pr).2 = true) :
    ∃ ct v, q pr.2.2 = some (ct, v) ∧ tr v = none := by
  rw [stepPair_eq] at h
  rcases hq : q pr.2.2 with _ | ⟨ct, val⟩
  · simp only [hq] at h
    exact Bool.noConfusion h
  · simp only [hq] at h
    by_cases hc : (decide (ct < pr.1.2) && !decide (pr.2.1 = sp) && !decide (pr.2.1 = ep))
        = true
    · rw [if_pos hc] at h
      cases h
    · rw [if_neg hc] at h
      rcases htr : tr val with _ | fields
      · exact ⟨ct, val, rfl, htr⟩
      · simp only [htr] at h
        exact Bool.noConfusion h

theorem stepPair_edges_suffix (q : Nat → Option (Nat × String))
    (tr : String → Option Fields) (info : SignalInfo) (sp ep : Int) (st : GenState)
    (pr : (Int × Nat) × (Int × Nat)) :
    ∃ t, (stepPair q tr info sp ep st pr).1.clock_edges = st.clock_edges ++ t := by
  rw [stepPair_eq]
  rcases hq : q pr.2.2 with _ | ⟨ct, val⟩
  · simp only [hq]
    exact ⟨[], by simp⟩
  · simp only [hq]
    split
    · exact ⟨[], by simp⟩
    · rcases htr : tr val with _ | fields
      · simp only [htr]
        exact ⟨[], by simp⟩
      · simp only [htr]
        exact fold_edges_suffix info ct pr.1.2 pr.2.1 _ _ fields st

theorem stepPair_entry_mono (q : Nat → Option (Nat × String))
    (tr : String → Option Fields) (info : SignalInfo) (sp ep : Int) (st : GenState)
    (pr : (Int × Nat) × (Int × Nat)) (path' : Path) (e : Int × DrawnRegion)
    (he : EntryIn st path' e) :
    EntryIn (stepPair q tr info sp ep st pr).1 path' e := by
  rw [stepPair_eq]
  rcases hq : q pr.2.2 with _ | ⟨ct, val⟩
  · simp only [hq]
    exact he
  · simp only [hq]
    split
    · exact he
    · rcases htr : tr val with _ | fields
      · simp only [htr]
        exact he
      · simp only [htr]
        exact fold_entry_mono info ct pr.1.2 pr.2.1 _ _ fields st path' e he

theorem stepPair_edges_sound (q : Nat → Option (Nat × String))
    (tr : String → Option Fields) (info : SignalInfo) (sp ep : Int) (st : GenState)
    (pr : (Int × Nat) × (Int × Nat)) (x : Int)
    (hx : x ∈ (stepPair q tr info sp ep st pr).1.clock_edges) :
    x ∈ st.clock_edges ∨ ∃ cht v fields path k,
      pr.2.1 = x ∧ x ≠ sp ∧ x ≠ ep ∧
      q pr.2.2 = some (cht, v) ∧ tr v = some fields ∧
      (path, some ("1", k)) ∈ fields ∧ (info.get_subinfo path).isClock = true := by
  rw [stepPair_eq] at hx
  rcases hq : q pr.2.2 with _ | ⟨ct, val⟩
  · simp only [hq] at hx
    exact Or.inl hx
  · simp only [hq] at hx
    revert hx
    split
    · exact fun hx => Or.inl hx
    · rcases htr : tr val with _ | fields
      · simp only [htr]
        exact fun hx => Or.inl hx
      · simp only [htr]
        intro hx
        rcases fold_edges_sound info ct pr.1.2 pr.2.1 _ _ fields st x hx with h | h
        · exact Or.inl h
        · obtain ⟨path, k, hmem, hcl, hxp, hil, hifi⟩ := h
          refine Or.inr ⟨ct, val, fields, path, k, hxp.symm, ?_, ?_, rfl, htr, hmem, hcl⟩
          · rw [hxp]
            exact of_decide_eq_false hifi
          · rw [hxp]
            exact of_decide_eq_false hil

theorem genLoop_append (q : Nat → Option (Nat × String)) (tr : String → Option Fields)
    (info : SignalInfo) (sp ep : Int) (l1 l2 : List ((Int × Nat) × (Int × Nat)))
    (st : GenState) :
    genLoop q tr info sp ep (l1 ++ l2) st =
      (if (genLoop q tr info sp ep l1 st).2 then genLoop q tr info sp ep l1 st
       else genLoop q tr info sp ep l2 (genLoop q tr info sp ep l1 st).1) := by
  induction l1 generalizing st with
  | nil => simp [genLoop]
  | cons p rest ih =>
    rw [List.cons_append, genLoop_cons, genLoop_cons]
    rcases hs : stepPair q tr info sp ep st p with ⟨st', ab⟩
    cases ab
    · exact ih st'
    · simp

theorem genLoop_no_abort (q : Nat → Option (Nat × String)) (tr : String → Option Fields)
    (info : SignalInfo) (sp ep : Int) (l : List ((Int × Nat) × (Int × Nat)))
    (st : GenState) (htot : ∀ v, (tr v).isSome) :
    (genLoop q tr info sp ep l st).2 = false := by
  induction l generalizing st with
  | nil => rfl
  | cons p rest ih =>
    rw [genLoop_cons]
    rcases hs : stepPair q tr info sp ep st p with ⟨st', ab⟩
    cases ab
    · exact ih st'
    · obtain ⟨ct, v, _, htr⟩ := stepPair_abort q tr info sp ep st p (by rw [hs])
      have hcontra := htot v
      rw [htr] at hcontra
      simp at hcontra

theorem genLoop_edges_mem_mono (q : Nat → Option (Nat × String))
    (tr : String → Option Fields) (info : SignalInfo) (sp ep : Int)
    (l : List ((Int × Nat) × (Int × Nat))) (st : GenState) (x : Int)
    (hx : x ∈ st.clock_edges) :
    x ∈ (genLoop q tr info sp ep l st).1.clock_edges := by
  induction l generalizing st with
  | nil => exact hx
  | cons p rest ih =>
    rw [genLoop_cons]
    rcases hs : stepPair q tr info sp ep st p with ⟨st', ab⟩
    have hx' : x ∈ st'.clock_edges := by
      obtain ⟨t, ht⟩ := stepPair_edges_suffix q tr info sp ep st p
      rw [hs] at ht
      rw [ht]
      exact List.mem_append_left _ hx
    cases ab
    · exact ih st' hx'
    · exact hx'

theorem genLoop_entry_mono (q : Nat → Option (Nat × String))
    (tr : String → Option Fields) (info : SignalInfo) (sp ep : Int)
    (l : List ((Int × Nat) × (Int × Nat))) (st : GenState) (path' : Path)
    (e : Int × DrawnRegion) (he : EntryIn st path' e) :
    EntryIn (genLoop q tr info sp ep l st).1 path' e := by
  induction l generalizing st with
  | nil => exact he
  | cons p rest ih =>
    rw [genLoop_cons]
    rcases hs : stepPair q tr info sp ep st p with ⟨st', ab⟩
    have he' : EntryIn st' path' e := by
      have := stepPair_entry_mono q tr info sp ep st p path' e he
      rw [hs] at this
      exact this
    cases ab
    · exact ih st' he'
    · exact he'

theorem genLoop_edges_sound (q : Nat → Option (Nat × String))
    (tr : String → Option Fields) (info : SignalInfo) (sp ep : Int)
    (l : List ((Int × Nat) × (Int × Nat))) (st : GenState) (x : Int)
    (hx : x ∈ (genLoop q tr info sp ep l st).1.clock_edges) :
    x ∈ st.clock_edges ∨ ClockEdgeJustified q tr info sp ep l x := by
  induction l generalizing st with
  | nil => exact Or.inl hx
  | cons p rest ih =>
    rw [genLoop_cons] at hx
    rcases hs : stepPair q tr info sp ep st p with ⟨st', ab⟩
    rw [hs] at hx
    have hsound : x ∈ st'.clock_edges → x ∈ st.clock_edges ∨
        ClockEdgeJustified q tr info sp ep (p :: rest) x := by
      intro hx'
      have := stepPair_edges_sound q tr info sp ep st p x (by rw [hs]; exact hx')
      rcases this with h | h
      · exact Or.inl h
      · exact Or.inr ⟨p, List.mem_cons_self .., h⟩
    cases ab
    · rcases ih st' hx with h | h
      · exact hsound h
      · obtain ⟨pr, hpr, hrest⟩ := h
        exact Or.inr ⟨pr, List.mem_cons_of_mem _ hpr, hrest⟩
    · exact hsound hx

/-! ### The data-source contract and the sparsity-skip invariant (claim C1) -/

theorem alookup_mem {β : Type} (l : List (Path × β)) (k : Path) (v : β)
    (h : alookup l k = some v) : (k, v) ∈ l := by
  induction l with
  | nil => cases h
  | cons kv rest ih =>
    obtain ⟨k0, v0⟩ := kv
    by_cases hk : k0 = k
    · subst hk
      simp only [alookup, if_pos rfl] at h
      injection h with h
      subst h
      exact List.mem_cons_self ..
    · simp only [alookup, if_neg hk] at h
      exact List.mem_cons_of_mem _ (ih h)

theorem lastChange_isSome_mono (changes : List (Nat × String)) (t t' : Nat) (h : t ≤ t')
    (hs : (lastChangeAtOrBefore changes t).isSome = true) :
    (lastChangeAtOrBefore changes t').isSome = true := by
  induction changes with
  | nil => exact hs
  | cons c rest ih =>
    unfold lastChangeAtOrBefore at hs ⊢
    cases hr' : lastChangeAtOrBefore rest t' with
    | some r => rfl
    | none =>
      cases hr : lastChangeAtOrBefore rest t with
      | some r =>
        have h2 := ih (by rw [hr]; rfl)
        rw [hr'] at h2
        cases h2
      | none =>
        rw [hr] at hs
        by_cases hct : c.1 ≤ t
        · show (if c.1 ≤ t' then some c else none).isSome = true
          rw [if_pos (le_trans hct h)]
          rfl
        · have hs2 : (if c.1 ≤ t then some c else none).isSome = true := hs
          rw [if_neg hct] at hs2
          cases hs2

theorem lastChange_back (changes : List (Nat × String)) (t t' ct : Nat) (v : String)
    (hle : t ≤ t') (hq : lastChangeAtOrBefore changes t' = some (ct, v)) (hct : ct ≤ t) :
    lastChangeAtOrBefore changes t = some (ct, v) := by
  induction changes with
  | nil => cases hq
  | cons c rest ih =>
    unfold lastChangeAtOrBefore at hq ⊢
    cases hr' : lastChangeAtOrBefore rest t' with
    | some r =>
      rw [hr'] at hq
      have hq2 : some r = some (ct, v) := hq
      injection hq2 with hq2
      subst hq2
      rw [ih hr']
    | none =>
      rw [hr'] at hq
      have hq2 : (if c.1 ≤ t' then some c else none) = some (ct, v) := hq
      have hnone : lastChangeAtOrBefore rest t = none := by
        cases hx : lastChangeAtOrBefore rest t with
        | none => rfl
        | some r =>
          have h3 := lastChange_isSome_mono rest t t' hle (by rw [hx]; rfl)
          rw [hr'] at h3
          cases h3
      rw [hnone]
      by_cases hc : c.1 ≤ t'
      · rw [if_pos hc] at hq2
        injection hq2 with hq2
        subst hq2
        show (if ct ≤ t then some ((ct, v) : Nat × String) else none) = some (ct, v)
        rw [if_pos hct]
      · rw [if_neg hc] at hq2
        cases hq2

theorem stepPair_prevInv (changes : List (Nat × String)) (tr : String → Option Fields)
    (info : SignalInfo) (sp ep : Int) (pxp px : Int) (pt ct2 : Nat)
    (st st' : GenState) (ab : Bool)
    (hnd : ∀ v fs, tr v = some fs → (fs.map Prod.fst).Nodup)
    (hle : pt ≤ ct2)
    (hstep : stepPair (lastChangeAtOrBefore changes) tr info sp ep st ((pxp, pt), (px, ct2))
      = (st', ab))
    (hab : ab = false)
    (hprev : PrevInv (lastChangeAtOrBefore changes) tr st pt ∨ px = sp) :
    PrevInv (lastChangeAtOrBefore changes) tr st' ct2 := by
  intro cq vq fieldsq pathq valq hq htr hlk
  rw [stepPair_eq] at hstep
  simp only [hq] at hstep
  revert hstep
  split
  · next hskip =>
    intro hstep
    injection hstep with h1 _
    subst h1
    simp only [Bool.and_eq_true, decide_eq_true_eq, Bool.not_eq_true',
      decide_eq_false_iff_not] at hskip
    rcases hprev with hinv | hsp
    · have hqpt : lastChangeAtOrBefore changes pt = some (cq, vq) :=
        lastChange_back changes pt ct2 cq vq hle hq (le_of_lt hskip.1.1)
      exact hinv cq vq fieldsq pathq valq hqpt htr hlk
    · exact absurd hsp hskip.1.2
  · rcases htr2 : tr vq with _ | fields2
    · rw [htr] at htr2
      cases htr2
    · simp only [htr2]
      intro hstep
      injection hstep with h1 _
      subst h1
      rw [htr] at htr2
      injection htr2 with htr2
      subst htr2
      exact fold_sets_prev info cq pt px _ _ fieldsq st (hnd vq fieldsq htr) pathq valq
        (alookup_mem fieldsq pathq valq hlk)

theorem genLoop_single (q : Nat → Option (Nat × String)) (tr : String → Option Fields)
    (info : SignalInfo) (sp ep : Int) (p : (Int × Nat) × (Int × Nat)) (st : GenState) :
    (genLoop q tr info sp ep [p] st).1 = (stepPair q tr info sp ep st p).1 := by
  rw [genLoop_cons]
  rcases hs : stepPair q tr info sp ep st p with ⟨st', ab⟩
  cases ab <;> rfl

theorem stepPair_noop (changes : List (Nat × String)) (tr : String → Option Fields)
    (info : SignalInfo) (sp ep : Int) (pxp px : Int) (pt ct2 cht : Nat) (v : String)
    (st : GenState)
    (hnd : ∀ v fs, tr v = some fs → (fs.map Prod.fst).Nodup)
    (hq : lastChangeAtOrBefore changes ct2 = some (cht, v))
    (hch : cht ≤ pt) (hle : pt ≤ ct2)
    (hfirst : px ≠ sp) (hlast : px ≠ ep)
    (hinv : PrevInv (lastChangeAtOrBefore changes) tr st pt) :
    (stepPair (lastChangeAtOrBefore changes) tr info sp ep st ((pxp, pt), (px, ct2))).1
      = st := by
  rw [stepPair_eq]
  simp only [hq]
  by_cases hlt : cht < pt
  · rw [if_pos (by simp [hlt, hfirst, hlast])]
  · rw [if_neg (by simp [hlt])]
    rcases htr : tr v with _ | fields
    · simp only [htr]
    · simp only [htr]
      show List.foldl (processField info cht pt px (decide (px = ep)) (decide (px = sp)))
        st fields = st
      rw [decide_eq_false hlast, decide_eq_false hfirst]
      apply fold_noop
      intro pv hpv
      obtain ⟨path, value⟩ := pv
      apply processField_noop
      · have hqpt : lastChangeAtOrBefore changes pt = some (cht, v) :=
          lastChange_back changes pt ct2 cht v hle hq hch
        have hlk : alookup fields path = some value :=
          alookup_of_mem_nodup fields (hnd v fields htr) path value hpv
        exact hinv cht v fields path value hqpt htr hlk
      · omega

theorem c1_loop (changes : List (Nat × String)) (tr : String → Option Fields)
    (info : SignalInfo) (sp ep : Int)
    (hnd : ∀ v fs, tr v = some fs → (fs.map Prod.fst).Nodup) :
    ∀ (l : List ((Int × Nat) × (Int × Nat))) (t : Nat) (st : GenState),
    PrevInv (lastChangeAtOrBefore changes) tr st t → ChainPairs t l →
    ∀ (i : Nat) (pxp : Int) (pt : Nat) (px : Int) (ct2 cht : Nat) (v : String),
      l.get? i = some ((pxp, pt), (px, ct2)) →
      lastChangeAtOrBefore changes ct2 = some (cht, v) → cht ≤ pt →
      px ≠ sp → px ≠ ep →
      (genLoop (lastChangeAtOrBefore changes) tr info sp ep (l.take (i+1)) st).1 =
        (genLoop (lastChangeAtOrBefore changes) tr info sp ep (l.take i) st).1 := by
  intro l
  induction l with
  | nil =>
    intro t st _ _ i pxp pt px ct2 cht v hget
    cases hget
  | cons p rest ih =>
    intro t st hinv hchain i pxp pt px ct2 cht v hget hq hch hfirst hlast
    obtain ⟨⟨a1, a2⟩, ⟨a3, a4⟩⟩ := p
    obtain ⟨hta, hle, hchain'⟩ := hchain
    cases i with
    | zero =>
      rw [List.get?_cons_zero] at hget
      injection hget with hget
      rw [Prod.mk.injEq] at hget
      obtain ⟨hget1, hget2⟩ := hget
      rw [Prod.mk.injEq] at hget1 hget2
      obtain ⟨hb1, hb2⟩ := hget2
      obtain ⟨ha1, ha2⟩ := hget1
      subst pxp
      subst pt
      subst px
      subst ct2
      rw [hta] at hinv
      rw [List.take_succ_cons, List.take_zero]
      rw [genLoop_single]
      exact stepPair_noop changes tr info sp ep a1 a3 a2 a4 cht v st hnd hq hch hle
        hfirst hlast hinv
    | succ j =>
      rw [List.get?_cons_succ] at hget
      rw [List.take_succ_cons, List.take_succ_cons]
      rw [genLoop_cons, genLoop_cons]
      rcases hs : stepPair (lastChangeAtOrBefore changes) tr info sp ep st
        ((a1, a2), (a3, a4)) with ⟨st', ab⟩
      cases ab
      · rw [hta] at hinv
        have hinv' : PrevInv (lastChangeAtOrBefore changes) tr st' a4 :=
          stepPair_prevInv changes tr info sp ep a1 a3 a2 a4 st st' false hnd hle hs rfl
            (Or.inl hinv)
        exact ih a4 st' hinv' hchain' j pxp pt px ct2 cht v hget hq hch hfirst hlast
      · rfl

theorem chainPairs_pairsOf : ∀ (x : Int × Nat) (ts2 : List (Int × Nat)),
    List.Chain' (fun a b => a ≤ b) ((x :: ts2).map Prod.snd) →
    ChainPairs x.2 (pairsOf (x :: ts2)) := by
  intro x ts2
  induction ts2 generalizing x with
  | nil => intro _; trivial
  | cons y r ih =>
    intro h
    obtain ⟨x1, x2⟩ := x
    obtain ⟨y1, y2⟩ := y
    rw [List.map_cons, List.map_cons, List.chain'_cons] at h
    refine ⟨rfl, h.1, ?_⟩
    exact ih (y1, y2) (by rw [List.map_cons]; exact h.2)

/-- Claim C1: in the sparsity optimization of `generate_draw_commands`, when
the data source is a proper at-or-before query over a change list, the sample
times are monotone, and translation never produces duplicate field paths,
then any consecutive pair whose returned change time is not newer than the
previous sample time — at a pixel that is neither the first nor the last
sample pixel — leaves the generator state unchanged: nothing is pushed for
any field at that pixel (when the change time equals the previous time the
code still translates, but emits nothing). -/
theorem claimC1_sparsity_skip (changes : List (Nat × String)) (tr : String → Option Fields)
    (info : SignalInfo) (ts : List (Int × Nat))
    (hmono : List.Chain' (fun a b => a ≤ b) (ts.map Prod.snd))
    (hnd : ∀ v fs, tr v = some fs → (fs.map Prod.fst).Nodup)
    (i : Nat) (pxp : Int) (pt : Nat) (px : Int) (ct2 cht : Nat) (v : String)
    (hget : (pairsOf ts).get? i = some ((pxp, pt), (px, ct2)))
    (hq : lastChangeAtOrBefore changes ct2 = some (cht, v))
    (hch : cht ≤ pt)
    (hfirst : px ≠ startPixel ts) (hlast : px ≠ endPixel ts) :
    (genLoop (lastChangeAtOrBefore changes) tr info (startPixel ts) (endPixel ts)
      ((pairsOf ts).take (i + 1)) ⟨[], [], []⟩).1 =
      (genLoop (lastChangeAtOrBefore changes) tr info (startPixel ts) (endPixel ts)
        ((pairsOf ts).take i) ⟨[], [], []⟩).1 := by
  rcases ts with _ | ⟨a, ts1⟩
  · cases hget
  rcases ts1 with _ | ⟨b, ts2⟩
  · cases hget
  obtain ⟨a1, a2⟩ := a
  obtain ⟨b1, b2⟩ := b
  have hpeq : pairsOf ((a1, a2) :: (b1, b2) :: ts2) =
    ((a1, a2), (b1, b2)) :: pairsOf ((b1, b2) :: ts2) := rfl
  have hsp : startPixel ((a1, a2) :: (b1, b2) :: ts2) = b1 := rfl
  rw [List.map_cons, List.map_cons, List.chain'_cons] at hmono
  cases i with
  | zero =>
    rw [hpeq, List.get?_cons_zero] at hget
    injection hget with hget
    rw [Prod.mk.injEq] at hget
    obtain ⟨h1, h2⟩ := hget
    rw [Prod.mk.injEq] at h2
    exact absurd (by rw [hsp]; exact h2.1.symm) hfirst
  | succ j =>
    rw [hpeq] at hget ⊢
    rw [List.get?_cons_succ] at hget
    rw [List.take_succ_cons, List.take_succ_cons]
    rw [genLoop_cons, genLoop_cons]
    rcases hs : stepPair (lastChangeAtOrBefore changes) tr info
      (startPixel ((a1, a2) :: (b1, b2) :: ts2)) (endPixel ((a1, a2) :: (b1, b2) :: ts2))
      ⟨[], [], []⟩ ((a1, a2), (b1, b2)) with ⟨st', ab⟩
    cases ab
    · have hinv' : PrevInv (lastChangeAtOrBefore changes) tr st' b2 :=
        stepPair_prevInv changes tr info _ _ a1 b1 a2 b2 ⟨[], [], []⟩ st' false hnd
          hmono.1 hs rfl (Or.inr hsp.symm)
      have hchain : ChainPairs b2 (pairsOf ((b1, b2) :: ts2)) :=
        chainPairs_pairsOf (b1, b2) ts2 (by rw [List.map_cons]; exact hmono.2)
      exact c1_loop changes tr info _ _ hnd (pairsOf ((b1, b2) :: ts2)) b2 st' hinv'
        hchain j pxp pt px ct2 cht v hget hq hch hfirst hlast
    · rfl

/-- Witness for C1 at a concrete middle pixel whose change is stale. -/
theorem claimC1_witness :
    ((pairsOf [((0:Int), (0:Nat)), (1, 1), (2, 2), (3, 3)]).get? 1 =
      some ((1, 1), (2, 2)) ∧
     lastChangeAtOrBefore [(0, "a")] 2 = some (0, "a") ∧ (0 : Nat) ≤ 1 ∧
     (2 : Int) ≠ startPixel [(0, 0), (1, 1), (2, 2), (3, 3)] ∧
     (2 : Int) ≠ endPixel [(0, 0), (1, 1), (2, 2), (3, 3)]) ∧
    (genLoop (lastChangeAtOrBefore [(0, "a")])
      (fun v => some [([], some (v, ValueKind.Normal))]) SignalInfo.bits
      (startPixel [(0, 0), (1, 1), (2, 2), (3, 3)])
      (endPixel [(0, 0), (1, 1), (2, 2), (3, 3)])
      ((pairsOf [(0, 0), (1, 1), (2, 2), (3, 3)]).take 2) ⟨[], [], []⟩).1 =
    (genLoop (lastChangeAtOrBefore [(0, "a")])
      (fun v => some [([], some (v, ValueKind.Normal))]) SignalInfo.bits
      (startPixel [(0, 0), (1, 1), (2, 2), (3, 3)])
      (endPixel [(0, 0), (1, 1), (2, 2), (3, 3)])
      ((pairsOf [(0, 0), (1, 1), (2, 2), (3, 3)]).take 1) ⟨[], [], []⟩).1 :=
  ⟨⟨by decide, by decide, by decide, by decide, by decide⟩,
   claimC1_sparsity_skip [(0, "a")] (fun v => some [([], some (v, ValueKind.Normal))])
     SignalInfo.bits [(0, 0), (1, 1), (2, 2), (3, 3)]
     (by norm_num [List.chain'_cons])
     (fun v fs h => by
       injection h with h
       rw [← h]
       simp)
     1 1 1 2 2 0 "a" (by decide) (by decide) (by decide) (by decide) (by decide)⟩

/-! ### Claim C2: the clock-edge list -/

/-- Counterexample to C2 as stated: a Boolean-shaped root field whose decoded
value "1" is emitted at the middle pixel 2 (an entry for that pixel is
pushed), yet the clock-edge list stays empty — only Clock-shaped fields feed
it, and even for those only emitting pixels are recorded. -/
theorem claimC2_counterexample :
    alookup (genLoop (lastChangeAtOrBefore [(0, "0"), (2, "1")])
        (fun v => some [([], some (v, ValueKind.Normal))]) SignalInfo.bool
        (startPixel [((0:Int), (0:Nat)), (1, 1), (2, 2), (3, 3)])
        (endPixel [(0, 0), (1, 1), (2, 2), (3, 3)])
        (pairsOf [(0, 0), (1, 1), (2, 2), (3, 3)]) ⟨[], [], []⟩).1.local_commands []
      = some ⟨true,
        [(1, ⟨some ("0", ValueKind.Normal), false⟩),
         (2, ⟨some ("1", ValueKind.Normal), false⟩),
         (3, ⟨some ("1", ValueKind.Normal), false⟩)]⟩ ∧
    (genLoop (lastChangeAtOrBefore [(0, "0"), (2, "1")])
        (fun v => some [([], some (v, ValueKind.Normal))]) SignalInfo.bool
        (startPixel [(0, 0), (1, 1), (2, 2), (3, 3)])
        (endPixel [(0, 0), (1, 1), (2, 2), (3, 3)])
        (pairsOf [(0, 0), (1, 1), (2, 2), (3, 3)]) ⟨[], [], []⟩).1.clock_edges = [] := by
  refine ⟨by decide, by decide⟩

/-- Claim C2 (amended): (soundness) every pixel in the clock-edge list comes
from a sample pair at that pixel — neither the first nor the last — some
field of whose translated value has Clock shape (never Boolean or any other
shape) and decodes to "1"; (completeness at root transitions) whenever a
sample pair carries a real transition (change time newer than the previous
sample time), its root field has Clock shape and decodes to "1", the pixel is
neither first nor last, and the loop has not aborted earlier, that pixel is
recorded. -/
theorem claimC2_clock_edge_list (q : Nat → Option (Nat × String))
    (tr : String → Option Fields) (info : SignalInfo) (sp ep : Int)
    (l : List ((Int × Nat) × (Int × Nat))) :
    (∀ x ∈ (genLoop q tr info sp ep l ⟨[], [], []⟩).1.clock_edges,
      ClockEdgeJustified q tr info sp ep l x) ∧
    (∀ (i : Nat) (pxp : Int) (pt : Nat) (px : Int) (ct2 cht : Nat) (v : String)
      (k : ValueKind) (fields : Fields),
      l.get? i = some ((pxp, pt), (px, ct2)) →
      q ct2 = some (cht, v) → pt < cht →
      tr v = some fields → ([], some ("1", k)) ∈ fields →
      (info.get_subinfo []).isClock = true →
      px ≠ sp → px ≠ ep →
      (genLoop q tr info sp ep (l.take i) ⟨[], [], []⟩).2 = false →
      px ∈ (genLoop q tr info sp ep l ⟨[], [], []⟩).1.clock_edges) := by
  constructor
  · intro x hx
    rcases genLoop_edges_sound q tr info sp ep l ⟨[], [], []⟩ x hx with h | h
    · cases h
    · exact h
  · intro i pxp pt px ct2 cht v k fields hget hq hlt htr hmem hclock hfirst hlast hnab
    have hdrop : l.drop i = ((pxp, pt), (px, ct2)) :: l.drop (i + 1) := by
      have hlt2 : i < l.length := by
        by_contra hc
        rw [List.get?_eq_none.mpr (le_of_not_lt hc)] at hget
        cases hget
      rw [List.drop_eq_get_cons hlt2]
      have := List.get?_eq_get hlt2
      rw [this] at hget
      injection hget with hget
      rw [hget]
    have hl : l = l.take i ++ (((pxp, pt), (px, ct2)) :: l.drop (i + 1)) := by
      rw [← hdrop, List.take_append_drop]
    rw [hl, genLoop_append, hnab]
    rw [if_neg Bool.false_ne_true]
    rw [genLoop_cons, stepPair_eq]
    simp only [hq]
    rw [if_neg (by simp [Nat.not_lt_of_lt hlt])]
    simp only [htr]
    rw [decide_eq_false hlast, decide_eq_false hfirst]
    rcases hfold : List.foldl (processField info cht pt px false false)
      (genLoop q tr info sp ep (l.take i) ⟨[], [], []⟩).1 fields with st2
    have hin : px ∈ st2.clock_edges := by
      rw [← hfold]
      exact fold_clock_edge info cht pt px fields _ k hmem hlt hclock
    exact genLoop_edges_mem_mono q tr info sp ep _ st2 px hin

/-- Witness for C2's completeness direction at a concrete clock transition. -/
theorem claimC2_witness :
    ((pairsOf [((0:Int), (0:Nat)), (1, 1), (2, 2), (3, 3)]).get? 1 =
        some ((1, 1), (2, 2)) ∧
      lastChangeAtOrBefore [(0, "0"), (2, "1")] 2 = some (2, "1") ∧ (1:Nat) < 2 ∧
      (SignalInfo.clock.get_subinfo []).isClock = true ∧
      (2:Int) ≠ startPixel [(0, 0), (1, 1), (2, 2), (3, 3)] ∧
      (2:Int) ≠ endPixel [(0, 0), (1, 1), (2, 2), (3, 3)]) ∧
    (2:Int) ∈ (genLoop (lastChangeAtOrBefore [(0, "0"), (2, "1")])
      (fun v => some [([], some (v, ValueKind.Normal))]) SignalInfo.clock
      (startPixel [(0, 0), (1, 1), (2, 2), (3, 3)])
      (endPixel [(0, 0), (1, 1), (2, 2), (3, 3)])
      (pairsOf [(0, 0), (1, 1), (2, 2), (3, 3)]) ⟨[], [], []⟩).1.clock_edges :=
  ⟨⟨by decide, by decide, by decide, by decide, by decide, by decide⟩,
   (claimC2_clock_edge_list (lastChangeAtOrBefore [(0, "0"), (2, "1")])
     (fun v => some [([], some (v, ValueKind.Normal))]) SignalInfo.clock
     (startPixel [(0, 0), (1, 1), (2, 2), (3, 3)])
     (endPixel [(0, 0), (1, 1), (2, 2), (3, 3)])
     (pairsOf [(0, 0), (1, 1), (2, 2), (3, 3)])).2
     1 1 1 2 2 2 "1" ValueKind.Normal [([], some ("1", ValueKind.Normal))]
     (by decide) (by decide) (by decide) rfl (by decide) (by decide) (by decide)
     (by decide) (by decide)⟩

/-! ### Claim C3: trailing flush -/

theorem exists_append_of_getLast {α : Type} (l : List α) (a : α)
    (h : l.getLast? = some a) : ∃ l2, l = l2 ++ [a] := by
  induction l with
  | nil => cases h
  | cons x rest ih =>
    cases rest with
    | nil =>
      have hx : x = a := by simpa using h
      subst hx
      exact ⟨[], rfl⟩
    | cons y rest2 =>
      rw [List.getLast?_cons_cons] at h
      obtain ⟨l2, hl2⟩ := ih h
      exact ⟨x :: l2, by rw [List.cons_append, ← hl2]⟩

theorem pairsOf_getLast : ∀ (r : List (Int × Nat)) (a b lastEl : Int × Nat),
    (a :: b :: r).getLast? = some lastEl →
    ∃ x, (pairsOf (a :: b :: r)).getLast? = some (x, lastEl) := by
  intro r
  induction r with
  | nil =>
    intro a b lastEl h
    rw [List.getLast?_cons_cons] at h
    have hb : b = lastEl := by simpa using h
    subst hb
    exact ⟨a, by simp [pairsOf]⟩
  | cons c r2 ih =>
    intro a b lastEl h
    rw [List.getLast?_cons_cons] at h
    obtain ⟨x, hx⟩ := ih b c lastEl h
    refine ⟨x, ?_⟩
    show ((a, b) :: pairsOf (b :: c :: r2)).getLast? = some (x, lastEl)
    rw [show pairsOf (b :: c :: r2) = (b, c) :: pairsOf (c :: r2) from rfl]
    rw [List.getLast?_cons_cons]
    exact hx

theorem alookup_tagged (l : List (Path × DrawingCommands)) (n : String) (path : Path) :
    alookup (l.map fun pc => ((n, pc.1), pc.2)) (n, path) = alookup l path := by
  induction l with
  | nil => rfl
  | cons pc rest ih =>
    obtain ⟨p, c⟩ := pc
    by_cases hp : p = path
    · subst hp
      simp [alookup]
    · rw [List.map_cons]
      show alookup (((n, p), c) :: _) (n, path) = _
      rw [alookup, alookup, if_neg (by simp [hp]), if_neg hp, ih]

/-- The zeta-expanded form of `signalBlock`. -/
theorem signalBlock_eq (ts : List (Int × Nat)) (s : Signal) :
    signalBlock ts s =
      (if s.meta_ok then
        (if (genLoop s.query s.translate s.info (startPixel ts) (endPixel ts)
            (pairsOf ts) ⟨[], [], []⟩).2 then []
         else (genLoop s.query s.translate s.info (startPixel ts) (endPixel ts)
            (pairsOf ts) ⟨[], [], []⟩).1.local_commands.map
              (fun pc => ((s.name, pc.1), pc.2)))
      else []) := rfl

/-- The trailing-flush core: with a total translator, the last sample pair
always pushes an entry at the end pixel for every flattened field of its
translated value. -/
theorem genLoop_trailing (q : Nat → Option (Nat × String)) (tr : String → Option Fields)
    (info : SignalInfo) (ts : List (Int × Nat)) (px : Int) (tlast : Nat)
    (hlast2 : ts.getLast? = some (px, tlast))
    (hlen : 2 ≤ ts.length)
    (htot : ∀ v, (tr v).isSome)
    (cht : Nat) (v : String) (hq : q tlast = some (cht, v))
    (fields : Fields) (htr : tr v = some fields)
    (path : Path) (value : TValue) (hmem : (path, value) ∈ fields) :
    ∃ c, alookup ((genLoop q tr info (startPixel ts) (endPixel ts) (pairsOf ts)
        ⟨[], [], []⟩).1.local_commands) path = some c ∧
      ∃ r, (px, r) ∈ c.values ∧ r.inner = value := by
  have hep : endPixel ts = px := by
    unfold endPixel
    rw [hlast2]
    rfl
  rcases ts with _ | ⟨a, ts1⟩
  · cases hlast2
  rcases ts1 with _ | ⟨b, ts2⟩
  · simp at hlen
  obtain ⟨x, hpl⟩ := pairsOf_getLast ts2 a b (px, tlast) hlast2
  obtain ⟨l2, hl2⟩ := exists_append_of_getLast _ _ hpl
  rw [hl2, genLoop_append]
  rw [genLoop_no_abort q tr info _ _ l2 _ htot]
  rw [if_neg Bool.false_ne_true]
  rw [genLoop_single, stepPair_eq]
  simp only [hq]
  have hd2 : decide (px = endPixel (a :: b :: ts2)) = true := by
    rw [hep]
    exact decide_eq_true rfl
  rw [hd2]
  rw [if_neg (by simp)]
  simp only [htr]
  obtain ⟨r, hr, hri⟩ := fold_pushes info cht x.2 px
    (decide (px = startPixel (a :: b :: ts2))) fields
    (genLoop q tr info (startPixel (a :: b :: ts2)) (endPixel (a :: b :: ts2)) l2
      ⟨[], [], []⟩).1 path value hmem
  obtain ⟨c, hc, hcm⟩ := hr
  exact ⟨c, hc, r, hcm, hri⟩

/-- Counterexample to C3 as stated: the data source returns a value at the
last sample pixel, but the translator fails on that value, so the signal is
aborted and its local commands are dropped — no entry at all is stored for it
(the reset message is emitted instead). -/
theorem claimC3_counterexample :
    (lastChangeAtOrBefore [(0, "a"), (2, "b")] 2 = some (2, "b")) ∧
    (generate_draw_commands [((0:Int), (0:Nat)), (1, 1), (2, 2)]
      [⟨"s", true, lastChangeAtOrBefore [(0, "a"), (2, "b")],
        fun v => if v = "a" then some [([], some ("a", ValueKind.Normal))] else none,
        SignalInfo.bits⟩]).draw_commands = [] ∧
    (generate_draw_commands [(0, 0), (1, 1), (2, 2)]
      [⟨"s", true, lastChangeAtOrBefore [(0, "a"), (2, "b")],
        fun v => if v = "a" then some [([], some ("a", ValueKind.Normal))] else none,
        SignalInfo.bits⟩]).msgs = [.ResetSignalFormat "s" []] := by
  refine ⟨by decide, by decide, by decide⟩

/-- Claim C3 (amended): provided the data-source query returns a value at the
last sample pixel and translation succeeds on every sampled value, the last
sample pixel always contributes a stored drawing entry for every flattened
field of its translated value, even when the value equals the previously
emitted one. -/
theorem claimC3_trailing_flush (ts : List (Int × Nat)) (s : Signal) (px : Int)
    (tlast : Nat)
    (hmeta : s.meta_ok = true)
    (hlast2 : ts.getLast? = some (px, tlast))
    (hlen : 2 ≤ ts.length)
    (htot : ∀ v, (s.translate v).isSome)
    (cht : Nat) (v : String) (hq : s.query tlast = some (cht, v))
    (fields : Fields) (htr : s.translate v = some fields)
    (path : Path) (value : TValue) (hmem : (path, value) ∈ fields) :
    ∃ c, alookup (signalBlock ts s) (s.name, path) = some c ∧
      ∃ r, (px, r) ∈ c.values ∧ r.inner = value := by
  rw [signalBlock_eq, if_pos hmeta]
  rw [genLoop_no_abort s.query s.translate s.info _ _ _ _ htot]
  rw [if_neg Bool.false_ne_true, alookup_tagged]
  exact genLoop_trailing s.query s.translate s.info ts px tlast hlast2 hlen htot cht v
    hq fields htr path value hmem

/-- Witness for the amended C3 on a run whose last value repeats the
previous one. -/
theorem claimC3_witness :
    ([((0:Int), (0:Nat)), (1, 1), (2, 2), (3, 3)].getLast? = some (3, 3) ∧
     lastChangeAtOrBefore [(0, "0"), (2, "1")] 3 = some (2, "1") ∧
     ([([], some ("1", ValueKind.Normal))] : Fields).length = 1) ∧
    ∃ c, alookup (signalBlock [(0, 0), (1, 1), (2, 2), (3, 3)]
        ⟨"s", true, lastChangeAtOrBefore [(0, "0"), (2, "1")],
          fun v => some [([], some (v, ValueKind.Normal))], SignalInfo.clock⟩)
        ("s", []) = some c ∧
      ∃ r, ((3:Int), r) ∈ c.values ∧ r.inner = some ("1", ValueKind.Normal) :=
  ⟨⟨by decide, by decide, rfl⟩,
   claimC3_trailing_flush [(0, 0), (1, 1), (2, 2), (3, 3)]
     ⟨"s", true, lastChangeAtOrBefore [(0, "0"), (2, "1")],
       fun v => some [([], some (v, ValueKind.Normal))], SignalInfo.clock⟩
     3 3 rfl (by decide) (by decide) (fun v => rfl) 2 "1" (by decide)
     [([], some ("1", ValueKind.Normal))] rfl [] (some ("1", ValueKind.Normal))
     (by decide)⟩

/-! ### Claim C5: per-signal failure isolation -/

theorem edgePush_shift (info : SignalInfo) (path : Path) (value : TValue)
    (il ifi : Bool) (px : Int) (e x : List Int) :
    edgePush info path value il ifi px (e ++ x) = e ++ edgePush info path value il ifi px x := by
  unfold edgePush
  split
  · match value with
    | some (s, k) =>
      show (if (s = "1" && !il && !ifi) = true then (e ++ x) ++ [px] else e ++ x) =
        e ++ (if (s = "1" && !il && !ifi) = true then x ++ [px] else x)
      by_cases h : (s = "1" && !il && !ifi) = true
      · rw [if_pos h, if_pos h, List.append_assoc]
      · rw [if_neg h, if_neg h]
    | none => rfl
  · rfl

theorem processField_edges_shift (info : SignalInfo) (ct pt : Nat) (px : Int)
    (il ifi : Bool) (pv : Path × TValue) (pvs : List (Path × TValue))
    (lc : List (Path × DrawingCommands)) (e x : List Int) :
    processField info ct pt px il ifi ⟨pvs, lc, e ++ x⟩ pv =
      ⟨(processField info ct pt px il ifi ⟨pvs, lc, x⟩ pv).prev_values,
       (processField info ct pt px il ifi ⟨pvs, lc, x⟩ pv).local_commands,
       e ++ (processField info ct pt px il ifi ⟨pvs, lc, x⟩ pv).clock_edges⟩ := by
  obtain ⟨path, value⟩ := pv
  rw [processField_eq, processField_eq]
  by_cases hg : (!(alookup pvs path == some value) || il ||
      (decide (pt < ct) && path.isEmpty)) = true
  · rw [if_pos hg, if_pos hg]
    dsimp only
    rw [edgePush_shift]
  · rw [if_neg hg, if_neg hg]

theorem fold_edges_shift (info : SignalInfo) (ct pt : Nat) (px : Int) (il ifi : Bool)
    (fields : Fields) :
    ∀ (pvs : List (Path × TValue)) (lc : List (Path × DrawingCommands)) (e x : List Int),
    fields.foldl (processField info ct pt px il ifi) ⟨pvs, lc, e ++ x⟩ =
      ⟨(fields.foldl (processField info ct pt px il ifi) ⟨pvs, lc, x⟩).prev_values,
       (fields.foldl (processField info ct pt px il ifi) ⟨pvs, lc, x⟩).local_commands,
       e ++ (fields.foldl (processField info ct pt px il ifi) ⟨pvs, lc, x⟩).clock_edges⟩ := by
  induction fields with
  | nil => intro pvs lc e x; rfl
  | cons f rest ih =>
    intro pvs lc e x
    rw [List.foldl_cons, List.foldl_cons, processField_edges_shift]
    exact ih (processField info ct pt px il ifi ⟨pvs, lc, x⟩ f).prev_values
      (processField info ct pt px il ifi ⟨pvs, lc, x⟩ f).local_commands e
      (processField info ct pt px il ifi ⟨pvs, lc, x⟩ f).clock_edges

theorem stepPair_edges_shift (q : Nat → Option (Nat × String))
    (tr : String → Option Fields) (info : SignalInfo) (sp ep : Int)
    (pr : (Int × Nat) × (Int × Nat)) (pvs : List (Path × TValue))
    (lc : List (Path × DrawingCommands)) (e x : List Int) :
    stepPair q tr info sp ep ⟨pvs, lc, e ++ x⟩ pr =
      (⟨(stepPair q tr info sp ep ⟨pvs, lc, x⟩ pr).1.prev_values,
        (stepPair q tr info sp ep ⟨pvs, lc, x⟩ pr).1.local_commands,
        e ++ (stepPair q tr info sp ep ⟨pvs, lc, x⟩ pr).1.clock_edges⟩,
       (stepPair q tr info sp ep ⟨pvs, lc, x⟩ pr).2) := by
  rw [stepPair_eq, stepPair_eq]
  rcases hq : q pr.2.2 with _ | ⟨ct, val⟩
  · simp only [hq]
  · simp only [hq]
    split
    · rfl
    · rcases htr : tr val with _ | fields
      · simp only [htr]
      · simp only [htr]
        rw [fold_edges_shift]

theorem genLoop_edges_shift (q : Nat → Option (Nat × String))
    (tr : String → Option Fields) (info : SignalInfo) (sp ep : Int)
    (l : List ((Int × Nat) × (Int × Nat))) :
    ∀ (pvs : List (Path × TValue)) (lc : List (Path × DrawingCommands)) (e x : List Int),
    genLoop q tr info sp ep l ⟨pvs, lc, e ++ x⟩ =
      (⟨(genLoop q tr info sp ep l ⟨pvs, lc, x⟩).1.prev_values,
        (genLoop q tr info sp ep l ⟨pvs, lc, x⟩).1.local_commands,
        e ++ (genLoop q tr info sp ep l ⟨pvs, lc, x⟩).1.clock_edges⟩,
       (genLoop q tr info sp ep l ⟨pvs, lc, x⟩).2) := by
  induction l with
  | nil => intro pvs lc e x; rfl
  | cons p rest ih =>
    intro pvs lc e x
    rw [genLoop_cons, genLoop_cons]
    rcases hs : stepPair q tr info sp ep ⟨pvs, lc, x⟩ p with ⟨st', ab⟩
    rw [stepPair_edges_shift, hs]
    cases ab
    · show genLoop q tr info sp ep rest ⟨st'.prev_values, st'.local_commands,
        e ++ st'.clock_edges⟩ = _
      rw [ih st'.prev_values st'.local_commands e st'.clock_edges]
    · rfl

/-- The zeta-expanded form of `processSignal`. -/
theorem processSignal_eq (ts : List (Int × Nat)) (acc : Output) (s : Signal) :
    processSignal ts acc s =
      (if s.meta_ok then
        (if (genLoop s.query s.translate s.info (startPixel ts) (endPixel ts)
            (pairsOf ts) ⟨[], [], acc.clock_edges⟩).2 then
          ⟨acc.draw_commands,
           (genLoop s.query s.translate s.info (startPixel ts) (endPixel ts)
             (pairsOf ts) ⟨[], [], acc.clock_edges⟩).1.clock_edges,
           acc.msgs ++ [.ResetSignalFormat s.name []]⟩
         else
          ⟨acc.draw_commands ++
            (genLoop s.query s.translate s.info (startPixel ts) (endPixel ts)
              (pairsOf ts) ⟨[], [], acc.clock_edges⟩).1.local_commands.map
                (fun pc => ((s.name, pc.1), pc.2)),
           (genLoop s.query s.translate s.info (startPixel ts) (endPixel ts)
             (pairsOf ts) ⟨[], [], acc.clock_edges⟩).1.clock_edges,
           acc.msgs⟩)
      else acc) := rfl

/-- The zeta-expanded form of `signalMsgs`. -/
theorem signalMsgs_eq (ts : List (Int × Nat)) (s : Signal) :
    signalMsgs ts s =
      (if s.meta_ok then
        (if (genLoop s.query s.translate s.info (startPixel ts) (endPixel ts)
            (pairsOf ts) ⟨[], [], []⟩).2 then [.ResetSignalFormat s.name []]
         else [])
      else []) := rfl

/-- One signal's processing step decomposes into the accumulated output plus
that signal's own contribution, which is independent of the accumulator. -/
theorem processSignal_decomp (ts : List (Int × Nat)) (acc : Output) (s : Signal) :
    processSignal ts acc s =
      ⟨acc.draw_commands ++ signalBlock ts s,
       acc.clock_edges ++ signalEdges ts s,
       acc.msgs ++ signalMsgs ts s⟩ := by
  rw [processSignal_eq, signalBlock_eq, signalMsgs_eq]
  unfold signalEdges
  by_cases hm : s.meta_ok
  · rw [if_pos hm, if_pos hm, if_pos hm, if_pos hm]
    have hsh := genLoop_edges_shift s.query s.translate s.info (startPixel ts)
      (endPixel ts) (pairsOf ts) [] [] acc.clock_edges []
    rw [List.append_nil] at hsh
    rw [hsh]
    cases hab : (genLoop s.query s.translate s.info (startPixel ts) (endPixel ts)
      (pairsOf ts) ⟨[], [], []⟩).2
    · rw [if_neg Bool.false_ne_true, if_neg Bool.false_ne_true,
        if_neg Bool.false_ne_true]
      rw [List.append_nil]
    · rw [if_pos rfl, if_pos rfl, if_pos rfl]
      rw [List.append_nil]
  · rw [if_neg hm, if_neg hm, if_neg hm, if_neg hm]
    rw [List.append_nil, List.append_nil, List.append_nil]

/-- The whole generator output is the concatenation of the per-signal
contributions. -/
theorem generate_decomp (ts : List (Int × Nat)) :
    ∀ (signals : List Signal) (acc : Output),
    signals.foldl (processSignal ts) acc =
      ⟨acc.draw_commands ++ (signals.map (signalBlock ts)).join,
       acc.clock_edges ++ (signals.map (signalEdges ts)).join,
       acc.msgs ++ (signals.map (signalMsgs ts)).join⟩ := by
  intro signals
  induction signals with
  | nil =>
    intro acc
    simp
  | cons s rest ih =>
    intro acc
    rw [List.foldl_cons, processSignal_decomp, ih]
    simp [List.append_assoc]

theorem signalBlock_key (ts : List (Int × Nat)) (t : Signal)
    (e : (String × Path) × DrawingCommands) (he : e ∈ signalBlock ts t) :
    e.1.1 = t.name := by
  rw [signalBlock_eq] at he
  revert he
  split
  · split
    · intro he
      cases he
    · intro he
      obtain ⟨pc, _, hpc⟩ := List.mem_map.mp he
      rw [← hpc]
  · intro he
    cases he

/-- Claim C5: a translation failure for one displayed signal emits the
reset-format request for that signal's root field and stops its processing;
the draw commands stored for all other displayed signals are exactly what
they would be without the failed signal, and no entry from the failed
signal's translation is stored. -/
theorem claimC5_translation_failure_isolation (ts : List (Int × Nat))
    (pre post : List Signal) (s : Signal)
    (hmeta : s.meta_ok = true)
    (habort : (genLoop s.query s.translate s.info (startPixel ts) (endPixel ts)
      (pairsOf ts) ⟨[], [], []⟩).2 = true) :
    (Message.ResetSignalFormat s.name [] ∈
      (generate_draw_commands ts (pre ++ s :: post)).msgs) ∧
    ((generate_draw_commands ts (pre ++ s :: post)).draw_commands =
      (generate_draw_commands ts (pre ++ post)).draw_commands) ∧
    ((∀ t ∈ pre ++ post, t.name ≠ s.name) →
      ∀ path, alookup (generate_draw_commands ts (pre ++ s :: post)).draw_commands
        (s.name, path) = none) := by
  have hblock : signalBlock ts s = [] := by
    rw [signalBlock_eq, if_pos hmeta, if_pos habort]
  have hmsgs : signalMsgs ts s = [Message.ResetSignalFormat s.name []] := by
    rw [signalMsgs_eq, if_pos hmeta, if_pos habort]
  unfold generate_draw_commands
  rw [generate_decomp, generate_decomp]
  refine ⟨?_, ?_, ?_⟩
  · show Message.ResetSignalFormat s.name [] ∈
      [] ++ ((pre ++ s :: post).map (signalMsgs ts)).join
    rw [List.nil_append]
    refine List.mem_join.mpr ⟨signalMsgs ts s, List.mem_map.mpr ⟨s, by simp, rfl⟩, ?_⟩
    rw [hmsgs]
    simp
  · show [] ++ ((pre ++ s :: post).map (signalBlock ts)).join =
      [] ++ ((pre ++ post).map (signalBlock ts)).join
    rw [List.map_append, List.map_append, List.map_cons]
    simp [hblock]
  · intro hnames path
    apply alookup_eq_none
    intro e he
    rw [List.nil_append] at he
    obtain ⟨blk, hblk, hemem⟩ := List.mem_join.mp he
    obtain ⟨t, ht, hteq⟩ := List.mem_map.mp hblk
    rw [← hteq] at hemem
    have hkey : e.1.1 = t.name := signalBlock_key ts t e hemem
    rcases List.mem_append.mp ht with hpre | hmid
    · have hname : t.name ≠ s.name := hnames t (List.mem_append_left _ hpre)
      intro heq
      rw [heq] at hkey
      exact hname hkey.symm
    · rcases List.mem_cons.mp hmid with hts | hpost
      · subst hts
        rw [hblock] at hemem
        cases hemem
      · have hname : t.name ≠ s.name := hnames t (List.mem_append_right _ hpost)
        intro heq
        rw [heq] at hkey
        exact hname hkey.symm

/-- Witness for C5: one failing signal next to one healthy signal. -/
theorem claimC5_witness :
    ((⟨"s", true, fun _ => some (0, "v"), fun _ => none, SignalInfo.bits⟩ :
        Signal).meta_ok = true ∧
      (genLoop (fun _ => some ((0:Nat), "v")) (fun _ => none) SignalInfo.bits
        (startPixel [((0:Int), (0:Nat)), (1, 1)]) (endPixel [(0, 0), (1, 1)])
        (pairsOf [(0, 0), (1, 1)]) ⟨[], [], []⟩).2 = true) ∧
    (Message.ResetSignalFormat "s" [] ∈
      (generate_draw_commands [(0, 0), (1, 1)]
        ([] ++ (⟨"s", true, fun _ => some (0, "v"), fun _ => none, SignalInfo.bits⟩ :
          Signal) ::
          [⟨"g", true, fun _ => some (0, "v"),
            fun v => some [([], some (v, ValueKind.Normal))], SignalInfo.bits⟩])).msgs) ∧
    alookup (generate_draw_commands [(0, 0), (1, 1)]
        ([] ++ (⟨"s", true, fun _ => some (0, "v"), fun _ => none, SignalInfo.bits⟩ :
          Signal) ::
          [⟨"g", true, fun _ => some (0, "v"),
            fun v => some [([], some (v, ValueKind.Normal))], SignalInfo.bits⟩])).draw_commands
      ("s", []) = none := by
  have hmeta : (⟨"s", true, fun _ => some (0, "v"), fun _ => none, SignalInfo.bits⟩ :
      Signal).meta_ok = true := rfl
  have habort : (genLoop (fun _ => some ((0:Nat), "v")) (fun _ => none) SignalInfo.bits
      (startPixel [((0:Int), (0:Nat)), (1, 1)]) (endPixel [(0, 0), (1, 1)])
      (pairsOf [(0, 0), (1, 1)]) ⟨[], [], []⟩).2 = true := by decide
  have hnames : ∀ t ∈ ([] ++ [(⟨"g", true, fun _ => some ((0:Nat), "v"),
      fun v => some [([], some (v, ValueKind.Normal))], SignalInfo.bits⟩ : Signal)]),
      t.name ≠ (⟨"s", true, fun _ => some (0, "v"), fun _ => none,
        SignalInfo.bits⟩ : Signal).name := by
    intro t ht
    rw [List.nil_append, List.mem_singleton] at ht
    subst ht
    decide
  have h := claimC5_translation_failure_isolation [(0, 0), (1, 1)] []
    [⟨"g", true, fun _ => some (0, "v"),
      fun v => some [([], some (v, ValueKind.Normal))], SignalInfo.bits⟩]
    ⟨"s", true, fun _ => some (0, "v"), fun _ => none, SignalInfo.bits⟩ hmeta habort
  exact ⟨⟨hmeta, habort⟩, h.1, h.2.2 hnames []⟩

end Surfer
